import Mathlib

/-!
Verification of the STFT round-trip spectral editor.

This file gives a shallow embedding of the engine code (the spectral mask
with its brush algorithm, the mask-to-spectrum combination, the STFT /
overlap-add ISTFT pipeline, the stochastic glitch processor and the
display downsampling) and proves or refutes the specified properties.

Numbers that the code stores in Float32Array / JS number slots are
modelled as exact rationals where only field operations and comparisons
occur, and as real numbers where transcendental functions
(Math.exp, Math.cos, FFT twiddles) enter.
-/

set_option maxHeartbeats 1000000
set_option maxRecDepth 8000

open Real

/-- The two brush modes of the spectral editor. -/
inductive BrushMode
  | subtractive
  | generative
  deriving DecidableEq

/-- The dual-layer spectral mask: F frames times B bins, a multiplicative
gain layer in dB (neutral 0) and an additive generative loudness layer in
dBFS (neutral -999).  The Float32Array of the source, indexed by
idx f b = f * B + b, is modelled as a function of the (frame, bin) pair. -/
structure SpectralMask where
  F : ℕ
  B : ℕ
  gainDbLayer : ℕ → ℕ → ℝ
  generativeDbLayer : ℕ → ℕ → ℝ

/-- The SpectralMask constructor: gain layer filled with 0,
generative layer filled with -999. -/
def SpectralMask.create (F B : ℕ) : SpectralMask :=
  ⟨F, B, fun _ _ => 0, fun _ _ => -999⟩

/-- JS Math.round: round half up. -/
def jsRound (q : ℚ) : ℤ := ⌊q + 1 / 2⌋

/-- The brush frame-radius: radiusF = Math.max(2, Math.round(radiusB / 4)). -/
def brushRadiusF (radiusB : ℚ) : ℚ := max 2 ((jsRound (radiusB / 4) : ℤ) : ℚ)

/-- Normalized squared elliptic distance of cell (f, b) from the brush
center: ((f - centerF)/(radiusF || 1))^2 + ((b - centerB)/(radiusB || 1))^2.
Since radiusF ≥ 2 the first JS zero-guard never fires. -/
def brushDistSq (centerF centerB radiusB : ℚ) (f b : ℕ) : ℚ :=
  ((f - centerF) / brushRadiusF radiusB) ^ 2 +
    ((b - centerB) / (if radiusB = 0 then 1 else radiusB)) ^ 2

/-- The clipped bounding box of the brush loop:
f0 = max(0, floor(centerF - radiusF)) ≤ f ≤ f1 = min(F-1, ceil(centerF + radiusF)),
and likewise for b with radiusB. -/
def inBrushBBox (F B : ℕ) (centerF centerB radiusB : ℚ) (f b : ℕ) : Prop :=
  (max 0 ⌊centerF - brushRadiusF radiusB⌋ ≤ (f : ℤ) ∧
    (f : ℤ) ≤ min ((F : ℤ) - 1) ⌈centerF + brushRadiusF radiusB⌉) ∧
  (max 0 ⌊centerB - radiusB⌋ ≤ (b : ℤ) ∧
    (b : ℤ) ≤ min ((B : ℤ) - 1) ⌈centerB + radiusB⌉)

instance (F B : ℕ) (cF cB rB : ℚ) (f b : ℕ) : Decidable (inBrushBBox F B cF cB rB f b) := by
  unfold inBrushBBox
  infer_instance

/-- A cell is touched by the brush iff it lies in the clipped bounding box
and its normalized squared distance is at most 1. -/
def brushHits (F B : ℕ) (centerF centerB radiusB : ℚ) (f b : ℕ) : Prop :=
  inBrushBBox F B centerF centerB radiusB f b ∧ brushDistSq centerF centerB radiusB f b ≤ 1

instance (F B : ℕ) (cF cB rB : ℚ) (f b : ℕ) : Decidable (brushHits F B cF cB rB f b) := by
  unfold brushHits
  infer_instance

/-- The Gaussian falloff weight w = Math.exp(-2.7726 * distSq). -/
noncomputable def brushWeight (centerF centerB radiusB : ℚ) (f b : ℕ) : ℝ :=
  Real.exp ((-2.7726 : ℝ) * ((brushDistSq centerF centerB radiusB f b : ℚ) : ℝ))

/-- SpectralMask.applyBrush.  For each touched cell:
subtractive paint  gain := clamp(gain + value*w, -80, 24);
subtractive erase  gain := min(0, gain + (-value)*w);
generative paint   gen  := max(gen, value - (1-w)*20);
generative erase   gen  := -999. -/
noncomputable def SpectralMask.applyBrush (m : SpectralMask)
    (centerF centerB radiusB : ℚ) (gainDb : ℝ) (isErase : Bool)
    (brushMode : BrushMode) : SpectralMask :=
  match brushMode with
  | .subtractive =>
    { m with gainDbLayer := fun f b =>
        if brushHits m.F m.B centerF centerB radiusB f b then
          if isErase then
            min 0 (m.gainDbLayer f b + -gainDb * brushWeight centerF centerB radiusB f b)
          else
            max (-80) (min 24 (m.gainDbLayer f b + gainDb * brushWeight centerF centerB radiusB f b))
        else m.gainDbLayer f b }
  | .generative =>
    { m with generativeDbLayer := fun f b =>
        if brushHits m.F m.B centerF centerB radiusB f b then
          if isErase then -999
          else
            max (m.generativeDbLayer f b)
              (gainDb - (1 - brushWeight centerF centerB radiusB f b) * 20)
        else m.generativeDbLayer f b }

/-- A transient brush stroke event. -/
structure BrushStroke where
  centerF : ℚ
  centerB : ℚ
  radiusB : ℚ
  value : ℝ
  isErase : Bool
  mode : BrushMode

/-- Apply a sequence of brush strokes in order. -/
noncomputable def SpectralMask.applyStrokes (m : SpectralMask) (l : List BrushStroke) :
    SpectralMask :=
  l.foldl (fun acc s => acc.applyBrush s.centerF s.centerB s.radiusB s.value s.isErase s.mode) m

lemma brushDistSq_nonneg (cF cB rB : ℚ) (f b : ℕ) : 0 ≤ brushDistSq cF cB rB f b :=
  add_nonneg (sq_nonneg _) (sq_nonneg _)

lemma brushWeight_pos (cF cB rB : ℚ) (f b : ℕ) : 0 < brushWeight cF cB rB f b :=
  Real.exp_pos _

lemma brushWeight_le_one (cF cB rB : ℚ) (f b : ℕ) : brushWeight cF cB rB f b ≤ 1 := by
  rw [brushWeight, Real.exp_le_one_iff]
  have h : (0 : ℝ) ≤ ((brushDistSq cF cB rB f b : ℚ) : ℝ) := by
    exact_mod_cast brushDistSq_nonneg cF cB rB f b
  nlinarith

/-- The per-cell clamp invariant of a mask. -/
def maskClamped (m : SpectralMask) : Prop :=
  ∀ f b : ℕ, (-80 ≤ m.gainDbLayer f b ∧ m.gainDbLayer f b ≤ 24) ∧
    (-999 ≤ m.generativeDbLayer f b ∧ m.generativeDbLayer f b ≤ 0)

lemma maskClamped_create (F B : ℕ) : maskClamped (SpectralMask.create F B) := by
  intro f b
  refine ⟨⟨?_, ?_⟩, ?_, ?_⟩ <;> norm_num [SpectralMask.create]

lemma maskClamped_applyBrush (m : SpectralMask) (cF cB rB : ℚ) (v : ℝ)
    (e : Bool) (mode : BrushMode)
    (hm : maskClamped m)
    (hsub : mode = BrushMode.subtractive → e = true → v ≤ 0)
    (hgen : mode = BrushMode.generative → e = false → v ≤ 0) :
    maskClamped (m.applyBrush cF cB rB v e mode) := by
  intro f b
  have hw₀ := brushWeight_pos cF cB rB f b
  have hw₁ := brushWeight_le_one cF cB rB f b
  obtain ⟨⟨hg₁, hg₂⟩, ⟨hn₁, hn₂⟩⟩ := hm f b
  cases mode with
  | subtractive =>
    refine ⟨?_, hn₁, hn₂⟩
    simp only [SpectralMask.applyBrush]
    by_cases hh : brushHits m.F m.B cF cB rB f b
    · simp only [hh, if_true]
      cases e with
      | false =>
        constructor
        · exact le_max_left _ _
        · exact max_le (by norm_num) (min_le_left _ _)
      | true =>
        have hv : v ≤ 0 := hsub rfl rfl
        constructor
        · have hnn : 0 ≤ -v * brushWeight cF cB rB f b :=
            mul_nonneg (by linarith) (le_of_lt hw₀)
          have h1 : -80 ≤ m.gainDbLayer f b + -v * brushWeight cF cB rB f b := by linarith
          exact le_min (by norm_num) h1
        · exact le_trans (min_le_left _ _) (by norm_num)
    · simp only [hh, if_false]
      exact ⟨hg₁, hg₂⟩
  | generative =>
    refine ⟨⟨hg₁, hg₂⟩, ?_⟩
    simp only [SpectralMask.applyBrush]
    by_cases hh : brushHits m.F m.B cF cB rB f b
    · simp only [hh, if_true]
      cases e with
      | false =>
        have hv : v ≤ 0 := hgen rfl rfl
        constructor
        · exact le_trans hn₁ (le_max_left _ _)
        · have h1 : v - (1 - brushWeight cF cB rB f b) * 20 ≤ 0 := by nlinarith
          exact max_le hn₂ h1
      | true => norm_num
    · simp only [hh, if_false]
      exact ⟨hn₁, hn₂⟩

lemma maskClamped_applyStrokes (m : SpectralMask) (l : List BrushStroke)
    (hm : maskClamped m)
    (hsub : ∀ s ∈ l, s.mode = BrushMode.subtractive → s.isErase = true → s.value ≤ 0)
    (hgen : ∀ s ∈ l, s.mode = BrushMode.generative → s.isErase = false → s.value ≤ 0) :
    maskClamped (m.applyStrokes l) := by
  induction l generalizing m with
  | nil => exact hm
  | cons s rest ih =>
    have hstep := maskClamped_applyBrush m s.centerF s.centerB s.radiusB s.value
      s.isErase s.mode hm
      (hsub s (List.mem_cons_self s rest)) (hgen s (List.mem_cons_self s rest))
    exact ih _ hstep
      (fun t ht => hsub t (List.mem_cons_of_mem s ht))
      (fun t ht => hgen t (List.mem_cons_of_mem s ht))

/-- C3 (amended): starting from a freshly created mask, after any sequence of
brush calls in which every subtractive erase uses a value ≤ 0 and every
generative paint uses a loudness ≤ 0, every gain cell lies in [-80, 24]
and every generative cell lies in [-999, 0]. -/
theorem create_applyStrokes_clamped (F B : ℕ) (l : List BrushStroke)
    (hsub : ∀ s ∈ l, s.mode = BrushMode.subtractive → s.isErase = true → s.value ≤ 0)
    (hgen : ∀ s ∈ l, s.mode = BrushMode.generative → s.isErase = false → s.value ≤ 0)
    (f b : ℕ) :
    (-80 ≤ ((SpectralMask.create F B).applyStrokes l).gainDbLayer f b ∧
      ((SpectralMask.create F B).applyStrokes l).gainDbLayer f b ≤ 24) ∧
    (-999 ≤ ((SpectralMask.create F B).applyStrokes l).generativeDbLayer f b ∧
      ((SpectralMask.create F B).applyStrokes l).generativeDbLayer f b ≤ 0) :=
  maskClamped_applyStrokes (SpectralMask.create F B) l (maskClamped_create F B) hsub hgen f b

/-- Witness for C3 (amended): a single in-range subtractive paint stroke of
gain -60 keeps the fresh 4×4 mask clamped at the center cell. -/
theorem create_applyStrokes_clamped_witness :
    (-80 ≤ ((SpectralMask.create 4 4).applyStrokes
        [⟨2, 2, 10, -60, false, BrushMode.subtractive⟩]).gainDbLayer 2 2 ∧
      ((SpectralMask.create 4 4).applyStrokes
        [⟨2, 2, 10, -60, false, BrushMode.subtractive⟩]).gainDbLayer 2 2 ≤ 24) ∧
    (-999 ≤ ((SpectralMask.create 4 4).applyStrokes
        [⟨2, 2, 10, -60, false, BrushMode.subtractive⟩]).generativeDbLayer 2 2 ∧
      ((SpectralMask.create 4 4).applyStrokes
        [⟨2, 2, 10, -60, false, BrushMode.subtractive⟩]).generativeDbLayer 2 2 ≤ 0) :=
  create_applyStrokes_clamped 4 4 [⟨2, 2, 10, -60, false, BrushMode.subtractive⟩]
    (by intro s hs h1 h2; simp at hs; subst hs; norm_num)
    (by intro s hs h1 h2; simp at hs; subst hs; simp at h1)
    2 2

/-- C3 counterexample: one subtractive erase with value 200 on a fresh 1×1
mask drives the center gain to -200, violating the claimed -80 floor
(the erase path min(0, gain - value*w) has no lower clamp). -/
theorem applyBrush_erase_breaks_gain_floor :
    ((SpectralMask.create 1 1).applyBrush 0 0 1 200 true BrushMode.subtractive).gainDbLayer 0 0
        = -200 ∧
    ¬ (-80 ≤ ((SpectralMask.create 1 1).applyBrush 0 0 1 200 true
        BrushMode.subtractive).gainDbLayer 0 0) := by
  have hd : brushDistSq 0 0 1 0 0 = 0 := by
    norm_num [brushDistSq, brushRadiusF, jsRound]
  have hhit : brushHits 1 1 0 0 1 0 0 := by
    refine ⟨⟨⟨?_, ?_⟩, ?_, ?_⟩, ?_⟩ <;>
      norm_num [brushRadiusF, jsRound, brushDistSq]
  have hw : brushWeight 0 0 1 0 0 = 1 := by
    rw [brushWeight, hd]
    norm_num [Real.exp_zero]
  have hval : ((SpectralMask.create 1 1).applyBrush 0 0 1 200 true
      BrushMode.subtractive).gainDbLayer 0 0 = -200 := by
    simp only [SpectralMask.applyBrush, SpectralMask.create, hhit, if_true]
    rw [hw]
    norm_num
  refine ⟨hval, ?_⟩
  rw [hval]
  norm_num

lemma brushRadiusF_ge_two (rB : ℚ) : 2 ≤ brushRadiusF rB := le_max_left _ _

lemma brushRadiusF_pos (rB : ℚ) : 0 < brushRadiusF rB :=
  lt_of_lt_of_le (by norm_num) (brushRadiusF_ge_two rB)

lemma abs_le_of_div_sq_le_one {x r : ℚ} (hr : 0 < r) (h : (x / r) ^ 2 ≤ 1) : |x| ≤ r := by
  have h1 : |x / r| ≤ 1 := (sq_le_one_iff_abs_le_one (x / r)).mp h
  rw [abs_div, abs_of_pos hr, div_le_one hr] at h1
  exact h1

/-- For an in-grid cell and a positive bin radius, the brush touch test is
equivalent to the normalized squared distance being at most 1: the clipped
bounding box already contains the whole ellipse. -/
lemma brushHits_iff (F B : ℕ) (cF cB rB : ℚ) (f b : ℕ)
    (hf : f < F) (hb : b < B) (hr : 0 < rB) :
    brushHits F B cF cB rB f b ↔ brushDistSq cF cB rB f b ≤ 1 := by
  constructor
  · exact fun h => h.2
  · intro hd
    have hrB : (if rB = 0 then 1 else rB) = rB := if_neg (ne_of_gt hr)
    have ht1 : (((f : ℚ) - cF) / brushRadiusF rB) ^ 2 ≤ 1 := by
      have := sq_nonneg (((b : ℚ) - cB) / (if rB = 0 then 1 else rB))
      rw [brushDistSq] at hd
      linarith
    have ht2 : (((b : ℚ) - cB) / rB) ^ 2 ≤ 1 := by
      have := sq_nonneg (((f : ℚ) - cF) / brushRadiusF rB)
      rw [brushDistSq, hrB] at hd
      linarith
    have hfabs : |(f : ℚ) - cF| ≤ brushRadiusF rB :=
      abs_le_of_div_sq_le_one (brushRadiusF_pos rB) ht1
    have hbabs : |(b : ℚ) - cB| ≤ rB := abs_le_of_div_sq_le_one hr ht2
    obtain ⟨hf1, hf2⟩ := abs_le.mp hfabs
    obtain ⟨hb1, hb2⟩ := abs_le.mp hbabs
    refine ⟨⟨⟨?_, ?_⟩, ?_, ?_⟩, hd⟩
    · refine max_le (Int.natCast_nonneg f) ?_
      have h2 : ⌊cF - brushRadiusF rB⌋ ≤ ⌊(f : ℚ)⌋ :=
        Int.floor_le_floor (by linarith)
      rwa [Int.floor_natCast] at h2
    · refine le_min ?_ ?_
      · have : (f : ℤ) < (F : ℤ) := by exact_mod_cast hf
        omega
      · have h3 : ((f : ℤ) : ℚ) ≤ ((⌈cF + brushRadiusF rB⌉ : ℤ) : ℚ) := by
          push_cast
          exact le_trans (by linarith) (Int.le_ceil _)
        exact_mod_cast h3
    · refine max_le (Int.natCast_nonneg b) ?_
      have h2 : ⌊cB - rB⌋ ≤ ⌊(b : ℚ)⌋ := Int.floor_le_floor (by linarith)
      rwa [Int.floor_natCast] at h2
    · refine le_min ?_ ?_
      · have : (b : ℤ) < (B : ℤ) := by exact_mod_cast hb
        omega
      · have h3 : ((b : ℤ) : ℚ) ≤ ((⌈cB + rB⌉ : ℤ) : ℚ) := by
          push_cast
          exact le_trans (by linarith) (Int.le_ceil _)
        exact_mod_cast h3

/-- C4: per-cell brush semantics.  d is the spec formula with frame-radius
max(2, round(radiusB/4)) and bin-radius radiusB; cells with d > 1 are
untouched; for d ≤ 1 with weight w = exp(-2.7726 d) exactly one cell value
changes, following the mode/erase combination. -/
theorem applyBrush_cell_rules (m : SpectralMask) (centerF centerB radiusB : ℚ)
    (value : ℝ) (isErase : Bool) (mode : BrushMode) (f b : ℕ)
    (hf : f < m.F) (hb : b < m.B) (hr : 0 < radiusB) :
    brushDistSq centerF centerB radiusB f b =
      (((f : ℚ) - centerF) / max 2 ((jsRound (radiusB / 4) : ℤ) : ℚ)) ^ 2 +
        (((b : ℚ) - centerB) / radiusB) ^ 2 ∧
    brushWeight centerF centerB radiusB f b =
      Real.exp ((-2.7726 : ℝ) * ((brushDistSq centerF centerB radiusB f b : ℚ) : ℝ)) ∧
    (1 < brushDistSq centerF centerB radiusB f b →
      (m.applyBrush centerF centerB radiusB value isErase mode).gainDbLayer f b
          = m.gainDbLayer f b ∧
      (m.applyBrush centerF centerB radiusB value isErase mode).generativeDbLayer f b
          = m.generativeDbLayer f b) ∧
    (brushDistSq centerF centerB radiusB f b ≤ 1 →
      (mode = BrushMode.subtractive → isErase = false →
        (m.applyBrush centerF centerB radiusB value isErase mode).gainDbLayer f b
          = max (-80) (min 24
              (m.gainDbLayer f b + value * brushWeight centerF centerB radiusB f b)) ∧
        (m.applyBrush centerF centerB radiusB value isErase mode).generativeDbLayer f b
          = m.generativeDbLayer f b) ∧
      (mode = BrushMode.subtractive → isErase = true →
        (m.applyBrush centerF centerB radiusB value isErase mode).gainDbLayer f b
          = min 0 (m.gainDbLayer f b - value * brushWeight centerF centerB radiusB f b) ∧
        (m.applyBrush centerF centerB radiusB value isErase mode).generativeDbLayer f b
          = m.generativeDbLayer f b) ∧
      (mode = BrushMode.generative → isErase = false →
        (m.applyBrush centerF centerB radiusB value isErase mode).generativeDbLayer f b
          = max (m.generativeDbLayer f b)
              (value - (1 - brushWeight centerF centerB radiusB f b) * 20) ∧
        (m.applyBrush centerF centerB radiusB value isErase mode).gainDbLayer f b
          = m.gainDbLayer f b) ∧
      (mode = BrushMode.generative → isErase = true →
        (m.applyBrush centerF centerB radiusB value isErase mode).generativeDbLayer f b
          = -999 ∧
        (m.applyBrush centerF centerB radiusB value isErase mode).gainDbLayer f b
          = m.gainDbLayer f b)) := by
  have hrB : (if radiusB = 0 then 1 else radiusB) = radiusB := if_neg (ne_of_gt hr)
  refine ⟨by rw [brushDistSq, hrB, brushRadiusF], rfl, ?_, ?_⟩
  · intro hd
    have hh : ¬ brushHits m.F m.B centerF centerB radiusB f b :=
      fun h => absurd h.2 (not_le.mpr hd)
    cases mode <;> simp [SpectralMask.applyBrush, hh]
  · intro hd
    have hh : brushHits m.F m.B centerF centerB radiusB f b :=
      (brushHits_iff m.F m.B centerF centerB radiusB f b hf hb hr).mpr hd
    refine ⟨?_, ?_, ?_, ?_⟩
    · rintro rfl rfl
      simp [SpectralMask.applyBrush, hh]
    · rintro rfl rfl
      constructor
      · simp only [SpectralMask.applyBrush, hh, if_true]
        ring_nf
      · simp [SpectralMask.applyBrush]
    · rintro rfl rfl
      simp [SpectralMask.applyBrush, hh]
    · rintro rfl rfl
      simp [SpectralMask.applyBrush, hh]

/-- Witness for C4: on a fresh 3×3 mask, a subtractive paint of value -5 at
the exact center cell (weight exp 0 = 1) sets the center gain to -5. -/
theorem applyBrush_cell_rules_witness :
    ((SpectralMask.create 3 3).applyBrush 1 1 1 (-5) false
        BrushMode.subtractive).gainDbLayer 1 1 = -5 := by
  have h := applyBrush_cell_rules (SpectralMask.create 3 3) 1 1 1 (-5) false
    BrushMode.subtractive 1 1 (by norm_num [SpectralMask.create])
    (by norm_num [SpectralMask.create]) (by norm_num)
  have hd : brushDistSq 1 1 1 1 1 = 0 := by
    norm_num [brushDistSq, brushRadiusF, jsRound]
  have hw : brushWeight 1 1 1 1 1 = 1 := by
    rw [brushWeight, hd]
    norm_num [Real.exp_zero]
  have h2 := (h.2.2.2 (by rw [hd]; norm_num)).1 rfl rfl
  rw [h2.1, hw]
  norm_num [SpectralMask.create]

lemma brushDistSq_center (f0 b0 : ℕ) (rB : ℚ) :
    brushDistSq (f0 : ℚ) (b0 : ℚ) rB f0 b0 = 0 := by
  simp [brushDistSq]

lemma brushWeight_center (f0 b0 : ℕ) (rB : ℚ) :
    brushWeight (f0 : ℚ) (b0 : ℚ) rB f0 b0 = 1 := by
  rw [brushWeight, brushDistSq_center]
  norm_num [Real.exp_zero]

/-- The brush always touches its own (integer, in-grid) center cell. -/
lemma brushHits_center (F B f0 b0 : ℕ) (rB : ℚ) (hf : f0 < F) (hb : b0 < B)
    (hr : 0 ≤ rB) : brushHits F B (f0 : ℚ) (b0 : ℚ) rB f0 b0 := by
  have hrF := brushRadiusF_ge_two rB
  refine ⟨⟨⟨?_, ?_⟩, ?_, ?_⟩, ?_⟩
  · refine max_le (Int.natCast_nonneg f0) ?_
    have h2 : ⌊(f0 : ℚ) - brushRadiusF rB⌋ ≤ ⌊(f0 : ℚ)⌋ :=
      Int.floor_le_floor (by linarith)
    rwa [Int.floor_natCast] at h2
  · refine le_min ?_ ?_
    · have : (f0 : ℤ) < (F : ℤ) := by exact_mod_cast hf
      omega
    · have h3 : ((f0 : ℤ) : ℚ) ≤ ((⌈(f0 : ℚ) + brushRadiusF rB⌉ : ℤ) : ℚ) := by
        push_cast
        exact le_trans (by linarith) (Int.le_ceil _)
      exact_mod_cast h3
  · refine max_le (Int.natCast_nonneg b0) ?_
    have h2 : ⌊(b0 : ℚ) - rB⌋ ≤ ⌊(b0 : ℚ)⌋ := Int.floor_le_floor (by linarith)
    rwa [Int.floor_natCast] at h2
  · refine le_min ?_ ?_
    · have : (b0 : ℤ) < (B : ℤ) := by exact_mod_cast hb
      omega
    · have h3 : ((b0 : ℤ) : ℚ) ≤ ((⌈(b0 : ℚ) + rB⌉ : ℤ) : ℚ) := by
        push_cast
        exact le_trans (by linarith) (Int.le_ceil _)
      exact_mod_cast h3
  · rw [brushDistSq_center]
    norm_num

/-- C5: a subtractive paint stroke of gain g < 0 strictly decreases the
center gain (when not already saturated at the -80 floor), lands exactly at
max(-80, gain + g), leaves every cell with normalized distance > 1 at its
prior value, and is a no-op on cells already saturated at -80. -/
theorem applyBrush_paint_monotone (m : SpectralMask) (f0 b0 : ℕ) (radiusB : ℚ)
    (g : ℝ) (hf : f0 < m.F) (hb : b0 < m.B) (hr : 0 ≤ radiusB) (hg : g < 0)
    (hlow : -80 < m.gainDbLayer f0 b0) (hhigh : m.gainDbLayer f0 b0 ≤ 24) :
    ((m.applyBrush (f0 : ℚ) (b0 : ℚ) radiusB g false BrushMode.subtractive).gainDbLayer f0 b0
        < m.gainDbLayer f0 b0 ∧
      (m.applyBrush (f0 : ℚ) (b0 : ℚ) radiusB g false BrushMode.subtractive).gainDbLayer f0 b0
        = max (-80) (m.gainDbLayer f0 b0 + g)) ∧
    (∀ f b : ℕ, 1 < brushDistSq (f0 : ℚ) (b0 : ℚ) radiusB f b →
      (m.applyBrush (f0 : ℚ) (b0 : ℚ) radiusB g false BrushMode.subtractive).gainDbLayer f b
        = m.gainDbLayer f b) ∧
    (∀ f b : ℕ, m.gainDbLayer f b = -80 →
      (m.applyBrush (f0 : ℚ) (b0 : ℚ) radiusB g false BrushMode.subtractive).gainDbLayer f b
        = -80) := by
  have hhit := brushHits_center m.F m.B f0 b0 radiusB hf hb hr
  have hcenter : (m.applyBrush (f0 : ℚ) (b0 : ℚ) radiusB g false
      BrushMode.subtractive).gainDbLayer f0 b0
      = max (-80) (m.gainDbLayer f0 b0 + g) := by
    simp only [SpectralMask.applyBrush, hhit, if_true, if_false, Bool.false_eq_true,
      brushWeight_center]
    rw [mul_one, min_eq_right (by linarith)]
  refine ⟨⟨?_, hcenter⟩, ?_, ?_⟩
  · rw [hcenter]
    exact max_lt (by linarith) (by linarith)
  · intro f b hd
    have hh : ¬ brushHits m.F m.B (f0 : ℚ) (b0 : ℚ) radiusB f b :=
      fun h => absurd h.2 (not_le.mpr hd)
    simp [SpectralMask.applyBrush, hh]
  · intro f b hsat
    by_cases hh : brushHits m.F m.B (f0 : ℚ) (b0 : ℚ) radiusB f b
    · have hw₀ := brushWeight_pos (f0 : ℚ) (b0 : ℚ) radiusB f b
      have hgw : g * brushWeight (f0 : ℚ) (b0 : ℚ) radiusB f b < 0 :=
        mul_neg_of_neg_of_pos hg hw₀
      simp only [SpectralMask.applyBrush, hh, if_true, Bool.false_eq_true, if_false, hsat]
      rw [min_eq_right (by linarith), max_eq_left (by linarith)]
    · simp [SpectralMask.applyBrush, hh, hsat]

/-- Witness for C5: painting -7 at the center of a fresh 4×4 mask yields
exactly -7 at the center cell. -/
theorem applyBrush_paint_monotone_witness :
    ((SpectralMask.create 4 4).applyBrush ((2 : ℕ) : ℚ) ((2 : ℕ) : ℚ) 1 (-7) false
        BrushMode.subtractive).gainDbLayer 2 2 = -7 := by
  have h := applyBrush_paint_monotone (SpectralMask.create 4 4) 2 2 1 (-7)
    (by norm_num [SpectralMask.create]) (by norm_num [SpectralMask.create])
    (by norm_num) (by norm_num)
    (by norm_num [SpectralMask.create]) (by norm_num [SpectralMask.create])
  rw [h.1.2]
  norm_num [SpectralMask.create]

/-- C10: a single applyBrush call changes at most one layer — subtractive
mode leaves the generative layer untouched, generative mode leaves the gain
layer untouched — preserves the mask dimensions, and leaves every cell
outside the clipped bounding box unchanged in both layers. -/
theorem applyBrush_frame_effect (m : SpectralMask) (cF cB rB : ℚ) (v : ℝ)
    (e : Bool) (mode : BrushMode) :
    (m.applyBrush cF cB rB v e mode).F = m.F ∧
    (m.applyBrush cF cB rB v e mode).B = m.B ∧
    (mode = BrushMode.subtractive →
      (m.applyBrush cF cB rB v e mode).generativeDbLayer = m.generativeDbLayer) ∧
    (mode = BrushMode.generative →
      (m.applyBrush cF cB rB v e mode).gainDbLayer = m.gainDbLayer) ∧
    (∀ f b : ℕ, ¬ inBrushBBox m.F m.B cF cB rB f b →
      (m.applyBrush cF cB rB v e mode).gainDbLayer f b = m.gainDbLayer f b ∧
      (m.applyBrush cF cB rB v e mode).generativeDbLayer f b = m.generativeDbLayer f b) := by
  have hmiss : ∀ f b : ℕ, ¬ inBrushBBox m.F m.B cF cB rB f b →
      ¬ brushHits m.F m.B cF cB rB f b := fun f b hbb h => hbb h.1
  cases mode with
  | subtractive =>
    refine ⟨rfl, rfl, fun _ => rfl, by simp, fun f b hbb => ?_⟩
    simp [SpectralMask.applyBrush, hmiss f b hbb]
  | generative =>
    refine ⟨rfl, rfl, by simp, fun _ => rfl, fun f b hbb => ?_⟩
    simp [SpectralMask.applyBrush, hmiss f b hbb]

/-- Witness for C10: a stroke near the origin of a fresh 2×2 mask leaves the
far-away cell (5,5) of the gain layer at its prior (neutral) value. -/
theorem applyBrush_frame_effect_witness :
    ((SpectralMask.create 2 2).applyBrush 0 0 1 3 false
        BrushMode.subtractive).gainDbLayer 5 5 = 0 := by
  have h := (applyBrush_frame_effect (SpectralMask.create 2 2) 0 0 1 3 false
      BrushMode.subtractive).2.2.2.2 5 5
    (by norm_num [inBrushBBox, SpectralMask.create, brushRadiusF, jsRound])
  rw [h.1]
  norm_num [SpectralMask.create]

/-- One matrix cell, out-of-range reads defaulting to 0 (rows are
rectangular in practice). -/
def poolCell {K : Type} [Field K] (matrix : List (List K)) (i j : ℕ) : K :=
  (matrix.getD i []).getD j 0

/-- The descending anchor indices of the loop
(let i = freqBins - 1; i >= 0; i -= freqRatio): n-1, n-1-r, n-1-2r, ... -/
def descAnchors (r n : ℕ) : List ℕ :=
  if n = 0 then [] else (List.range ((n - 1) / r + 1)).map (fun k => n - 1 - k * r)

/-- The ascending anchor indices of the loop
(let j = 0; j < timeSteps; j += timeRatio): 0, r, 2r, ... below n. -/
def ascAnchors (r n : ℕ) : List ℕ :=
  (List.range ((n + r - 1) / r)).map (fun k => k * r)

/-- Average of the pooling block anchored at (i, j): cells (i - y, j + x) for
y < freqRatio with i - y ≥ 0 and x < timeRatio with j + x < timeSteps;
0 when the block is empty. -/
def poolAvg {K : Type} [Field K] (matrix : List (List K)) (fr tr T i j : ℕ) : K :=
  let ys := (List.range fr).filter (fun y => decide (y ≤ i))
  let xs := (List.range tr).filter (fun x => decide (j + x < T))
  let count := ys.length * xs.length
  let sum := (ys.map (fun y => ((xs.map (fun x => poolCell matrix (i - y) (j + x))).sum))).sum
  if count = 0 then 0 else sum / (count : K)

/-- downsampleAndCreateLabels, data part: average-pool with ratios
floor(dimension/cap) (minimum 1) for caps 512 time steps and 256 frequency
bins, iterating frequency from highest to lowest. -/
def downsampleData {K : Type} [Field K] (matrix : List (List K)) : List (List K) :=
  let freqBins := matrix.length
  let timeSteps := (matrix.headD []).length
  let timeRatio := max 1 (timeSteps / 512)
  let freqRatio := max 1 (freqBins / 256)
  (descAnchors freqRatio freqBins).map (fun i =>
    (ascAnchors timeRatio timeSteps).map (fun j =>
      poolAvg matrix freqRatio timeRatio timeSteps i j))

lemma ratio_bound_key (cap r tn : ℤ) (hcap : 1 ≤ cap) (hr : 1 ≤ r)
    (hcapr : tn - (cap - 1) ≤ cap * r) : tn - 1 < (2 * cap - 1) * r := by
  nlinarith [mul_nonneg (by linarith : (0:ℤ) ≤ cap - 1) (by linarith : (0:ℤ) ≤ r - 1)]

/-- The downsampled row count can reach 2*cap - 1, but no more. -/
lemma desc_count_le (n cap : ℕ) (hcap : 1 ≤ cap) :
    (if n = 0 then 0 else (n - 1) / max 1 (n / cap) + 1) ≤ 2 * cap - 1 := by
  by_cases hn : n = 0
  · simp [hn]
  · simp only [hn, if_false]
    have hr1 : 1 ≤ max 1 (n / cap) := le_max_left _ _
    have hlt : (n - 1) / max 1 (n / cap) < 2 * cap - 1 := by
      rw [Nat.div_lt_iff_lt_mul (by omega)]
      have h1 := Nat.div_add_mod n cap
      have h2 : n % cap < cap := Nat.mod_lt n (by omega)
      have h3 : n / cap ≤ max 1 (n / cap) := le_max_right _ _
      have h4 : cap * (n / cap) ≤ cap * max 1 (n / cap) := Nat.mul_le_mul_left cap h3
      have hkey := ratio_bound_key (cap : ℤ) ((max 1 (n / cap) : ℕ) : ℤ) (n : ℤ)
        (by exact_mod_cast hcap) (by exact_mod_cast hr1)
        (by push_cast at h1 h2 h4 ⊢; linarith)
      zify [show 1 ≤ n by omega, show 1 ≤ 2 * cap by omega]
      exact_mod_cast hkey
    omega

/-- The downsampled column count can reach 2*cap - 1, but no more. -/
lemma asc_count_le (T cap : ℕ) (hcap : 1 ≤ cap) :
    (T + max 1 (T / cap) - 1) / max 1 (T / cap) ≤ 2 * cap - 1 := by
  have hr1 : 1 ≤ max 1 (T / cap) := le_max_left _ _
  have hlt : (T + max 1 (T / cap) - 1) / max 1 (T / cap) < 2 * cap := by
    rw [Nat.div_lt_iff_lt_mul (by omega)]
    have h1 := Nat.div_add_mod T cap
    have h2 : T % cap < cap := Nat.mod_lt T (by omega)
    have h3 : T / cap ≤ max 1 (T / cap) := le_max_right _ _
    have h4 : cap * (T / cap) ≤ cap * max 1 (T / cap) := Nat.mul_le_mul_left cap h3
    have hkey := ratio_bound_key (cap : ℤ) ((max 1 (T / cap) : ℕ) : ℤ) (T : ℤ)
      (by exact_mod_cast hcap) (by exact_mod_cast hr1)
      (by push_cast at h1 h2 h4 ⊢; linarith)
    zify [show 1 ≤ T + max 1 (T / cap) by omega]
    push_cast at hkey ⊢
    linarith
  omega

lemma downsampleData_length {K : Type} [Field K] (m : List (List K)) :
    (downsampleData m).length
      = if m.length = 0 then 0 else (m.length - 1) / max 1 (m.length / 256) + 1 := by
  by_cases h : m.length = 0 <;> simp [downsampleData, descAnchors, h]

lemma downsampleData_row_length {K : Type} [Field K] (m : List (List K))
    (row : List K) (hrow : row ∈ downsampleData m) :
    row.length = ((m.headD []).length + max 1 ((m.headD []).length / 512) - 1)
      / max 1 ((m.headD []).length / 512) := by
  simp only [downsampleData, List.mem_map] at hrow
  obtain ⟨i, _, rfl⟩ := hrow
  simp [ascAnchors]

/-- C2 (amended): the display matrix has at most 511 rows and at most 1023
columns (the exact counts are ceil(dim / max(1, floor(dim/cap))), which can
exceed the caps 256 and 512 by nearly a factor of two), and when the input
is nonempty its row 0 is the pooling block anchored at the highest
frequency bin freqBins - 1. -/
theorem downsampleData_bounds (matrix : List (List ℚ)) :
    (downsampleData matrix).length ≤ 511 ∧
    (∀ row ∈ downsampleData matrix, row.length ≤ 1023) ∧
    (0 < matrix.length →
      (downsampleData matrix).headD []
        = (ascAnchors (max 1 ((matrix.headD []).length / 512)) (matrix.headD []).length).map
            (fun j => poolAvg matrix (max 1 (matrix.length / 256))
              (max 1 ((matrix.headD []).length / 512)) (matrix.headD []).length
              (matrix.length - 1) j)) := by
  refine ⟨?_, ?_, ?_⟩
  · rw [downsampleData_length]
    have h := desc_count_le matrix.length 256 (by norm_num)
    simpa using h
  · intro row hrow
    rw [downsampleData_row_length matrix row hrow]
    have h := asc_count_le (matrix.headD []).length 512 (by norm_num)
    simpa using h
  · intro hpos
    have h : matrix.length ≠ 0 := by omega
    simp only [downsampleData, descAnchors, h, if_false]
    rw [List.range_succ_eq_map]
    simp

/-- Witness for C2 (amended): a 300×1 input matrix downsamples to 300 rows
(more than the claimed 256, within the proven 511), with row 0 anchored at
bin 299. -/
theorem downsampleData_bounds_witness :
    (downsampleData (List.replicate 300 [(0:ℚ)])).length ≤ 511 ∧
    (0 < (List.replicate 300 [(0:ℚ)]).length) := by
  refine ⟨(downsampleData_bounds (List.replicate 300 [(0:ℚ)])).1, by simp⟩

/-- C2 counterexample: a 257×1 input matrix produces 257 display rows, so
the claimed bound of at most 256 rows is false (freqRatio is
max(1, floor(257/256)) = 1, and the descending loop then emits one row per
input row). -/
theorem downsampleData_exceeds_claimed_row_bound :
    (downsampleData (List.replicate 257 [(0:ℚ)])).length = 257 ∧
    ¬ ((downsampleData (List.replicate 257 [(0:ℚ)])).length ≤ 256) := by
  have h : (downsampleData (List.replicate 257 [(0:ℚ)])).length = 257 := by
    rw [downsampleData_length]
    norm_num
  exact ⟨h, by rw [h]; norm_num⟩

/-- Glitch knobs of TransformParams.audioGlitch. -/
structure GlitchConfig where
  enabled : Bool
  stutterChance : ℚ
  stutterDuration : ℚ
  dropChance : ℚ

/-- The fixed 512-sample chunk size of the glitch loop. -/
def glitchChunkSize : ℕ := 512

/-- A JS typed-array write at a signed index: negative and out-of-range
indices are silently dropped. -/
def setZ (l : List ℚ) (idx : ℤ) (v : ℚ) : List ℚ :=
  if idx < 0 then l else l.set idx.toNat v

/-- stutterDurationSamples = Math.floor(sr * (stutterDuration / 1000)). -/
def stutterSamples (sr : ℚ) (g : GlitchConfig) : ℤ :=
  ⌊sr * (g.stutterDuration / 1000)⌋

/-- State of the chunk loop: Math.random draw counter, chunk cursor, buffer. -/
structure GlitchState where
  cnt : ℕ
  i : ℤ
  out : List ℚ

/-- stutterChunk = output.slice(Math.max(0, i - chunkSize), i). -/
def stutterChunk (s : GlitchState) : List ℚ :=
  (s.out.drop (max 0 (s.i - glitchChunkSize)).toNat).take
    (s.i.toNat - (max 0 (s.i - glitchChunkSize)).toNat)

/-- The stutter write loop: for s in [0, sd), if i + s < len, write
chunk[s % chunk.length] at index i + s. -/
def stutterWrite (sd : ℕ) (i len : ℤ) (chunk : List ℚ) (out : List ℚ) : List ℚ :=
  (List.range sd).foldl
    (fun (acc : List ℚ) (t : ℕ) =>
      if i + (t : ℤ) < len then setZ acc (i + (t : ℤ)) (chunk.getD (t % chunk.length) 0) else acc)
    out

/-- The drop write loop: zero indices i + j for j < chunkSize with i + j < len. -/
def dropWrite (i len : ℤ) (out : List ℚ) : List ℚ :=
  (List.range glitchChunkSize).foldl
    (fun (acc : List ℚ) (j : ℕ) =>
      if i + (j : ℤ) < len then setZ acc (i + (j : ℤ)) 0 else acc) out

/-- One iteration of the chunk loop of applyAudioGlitches: an independent
stutter check (replicating the previous chunk cyclically and moving the
cursor by stutterDurationSamples - chunkSize when the previous chunk is
nonempty) followed by an independent drop check, then the cursor advances
by one chunk. -/
def glitchStep (sr : ℚ) (g : GlitchConfig) (rand : ℕ → ℚ) (s : GlitchState) : GlitchState :=
  let len : ℤ := s.out.length
  let stuttered :=
    if rand s.cnt < g.stutterChance then
      if 0 < (stutterChunk s).length then
        (stutterWrite (stutterSamples sr g).toNat s.i len (stutterChunk s) s.out,
          s.i + stutterSamples sr g - glitchChunkSize)
      else (s.out, s.i)
    else (s.out, s.i)
  let out2 :=
    if rand (s.cnt + 1) < g.dropChance then dropWrite stuttered.2 len stuttered.1
    else stuttered.1
  ⟨s.cnt + 2, stuttered.2 + glitchChunkSize, out2⟩

/-- The chunk loop (for i = 0; i < output.length; i += chunkSize) with an
explicit fuel bound; none means the fuel was exhausted before the loop
exited. -/
def glitchLoop (sr : ℚ) (g : GlitchConfig) (rand : ℕ → ℚ) : ℕ → GlitchState → Option GlitchState
  | 0, s => if s.i < (s.out.length : ℤ) then none else some s
  | fuel + 1, s =>
      if s.i < (s.out.length : ℤ) then glitchLoop sr g rand fuel (glitchStep sr g rand s)
      else some s

/-- applyAudioGlitches: identity when disabled, otherwise the chunk loop on
a copy of the signal starting at cursor 0. -/
def applyAudioGlitches (sr : ℚ) (g : GlitchConfig) (rand : ℕ → ℚ) (signal : List ℚ)
    (fuel : ℕ) : Option (List ℚ) :=
  if g.enabled = false then some signal
  else (glitchLoop sr g rand fuel ⟨0, 0, signal⟩).map (fun s => s.out)

/-- The glitch loop terminates on the given input for some fuel. -/
def glitchTerminates (sr : ℚ) (g : GlitchConfig) (rand : ℕ → ℚ) (signal : List ℚ) : Prop :=
  ∃ fuel s, glitchLoop sr g rand fuel ⟨0, 0, signal⟩ = some s

lemma setZ_length (l : List ℚ) (idx : ℤ) (v : ℚ) : (setZ l idx v).length = l.length := by
  rw [setZ]
  by_cases h : idx < 0 <;> simp [h]

lemma foldl_length_preserved (f : List ℚ → ℕ → List ℚ)
    (hf : ∀ acc t, (f acc t).length = acc.length) :
    ∀ (ts : List ℕ) (l : List ℚ), (ts.foldl f l).length = l.length := by
  intro ts
  induction ts with
  | nil => intro l; rfl
  | cons t ts ih =>
    intro l
    rw [List.foldl_cons, ih, hf]

lemma stutterWrite_length (sd : ℕ) (i len : ℤ) (chunk out : List ℚ) :
    (stutterWrite sd i len chunk out).length = out.length := by
  rw [stutterWrite]
  apply foldl_length_preserved
  intro acc t
  by_cases h : i + (t : ℤ) < len <;> simp [h, setZ_length]

lemma dropWrite_length (i len : ℤ) (out : List ℚ) :
    (dropWrite i len out).length = out.length := by
  rw [dropWrite]
  apply foldl_length_preserved
  intro acc t
  by_cases h : i + (t : ℤ) < len <;> simp [h, setZ_length]

lemma glitchStep_length (sr : ℚ) (g : GlitchConfig) (rand : ℕ → ℚ) (s : GlitchState) :
    (glitchStep sr g rand s).out.length = s.out.length := by
  rw [glitchStep]
  by_cases h1 : rand s.cnt < g.stutterChance <;>
    by_cases h2 : 0 < (stutterChunk s).length <;>
      by_cases h3 : rand (s.cnt + 1) < g.dropChance <;>
        simp [h1, h2, h3, dropWrite_length, stutterWrite_length]

lemma glitchStep_advance (sr : ℚ) (g : GlitchConfig) (rand : ℕ → ℚ) (s : GlitchState)
    (hsd : 1 ≤ stutterSamples sr g) :
    s.i + 1 ≤ (glitchStep sr g rand s).i := by
  rw [glitchStep]
  by_cases h1 : rand s.cnt < g.stutterChance <;>
    by_cases h2 : 0 < (stutterChunk s).length <;>
      by_cases h3 : rand (s.cnt + 1) < g.dropChance <;>
        simp [h1, h2, h3, glitchChunkSize] <;> omega

lemma glitchLoop_term (sr : ℚ) (g : GlitchConfig) (rand : ℕ → ℚ)
    (hsd : 1 ≤ stutterSamples sr g) :
    ∀ (fuel : ℕ) (s : GlitchState), (s.out.length : ℤ) ≤ s.i + fuel →
      ∃ s2, glitchLoop sr g rand fuel s = some s2 ∧ s2.out.length = s.out.length := by
  intro fuel
  induction fuel with
  | zero =>
    intro s hs
    rw [glitchLoop]
    simp only [Nat.cast_zero, add_zero] at hs
    rw [if_neg (not_lt.mpr hs)]
    exact ⟨s, rfl, rfl⟩
  | succ fuel ih =>
    intro s hs
    rw [glitchLoop]
    by_cases h : s.i < (s.out.length : ℤ)
    · rw [if_pos h]
      have hadv := glitchStep_advance sr g rand s hsd
      have hlen := glitchStep_length sr g rand s
      obtain ⟨s2, h2, h3⟩ := ih (glitchStep sr g rand s)
        (by rw [hlen]; push_cast at hs ⊢; omega)
      exact ⟨s2, h2, by rw [h3, hlen]⟩
    · rw [if_neg h]
      exact ⟨s, rfl, rfl⟩

/-- C9 (amended): whenever the stutter duration converts to at least one
sample, applyAudioGlitches terminates (fuel length+1 suffices) and returns
a buffer of exactly the input length, for every input signal, random draw
sequence and remaining parameters. -/
theorem applyAudioGlitches_terminates (sr : ℚ) (g : GlitchConfig) (rand : ℕ → ℚ)
    (signal : List ℚ) (hsd : 1 ≤ stutterSamples sr g) :
    ∃ out : List ℚ, applyAudioGlitches sr g rand signal (signal.length + 1) = some out ∧
      out.length = signal.length := by
  rw [applyAudioGlitches]
  by_cases hen : g.enabled = false
  · rw [if_pos hen]
    exact ⟨signal, rfl, rfl⟩
  · rw [if_neg hen]
    obtain ⟨s2, h2, h3⟩ := glitchLoop_term sr g rand hsd (signal.length + 1) ⟨0, 0, signal⟩
      (by push_cast; omega)
    exact ⟨s2.out, by rw [h2]; rfl, h3⟩

/-- Witness for C9 (amended): a 1-sample signal with a 1000 ms stutter
duration at 44100 Hz terminates with a 1-sample output. -/
theorem applyAudioGlitches_terminates_witness :
    ∃ out : List ℚ, applyAudioGlitches 44100 ⟨true, 0, 1000, 0⟩ (fun _ => 0) [5] 2
      = some out ∧ out.length = 1 := by
  have h := applyAudioGlitches_terminates 44100 ⟨true, 0, 1000, 0⟩ (fun _ => 0) [5]
    (by norm_num [stutterSamples])
  simpa using h

lemma setZ_getD_zero_write (l : List ℚ) (idx : ℤ) (v : ℚ) (j : ℕ)
    (hv : v = 0) (hj : (j : ℤ) = idx) : (setZ l idx v).getD j 0 = 0 := by
  rw [setZ, if_neg (by omega : ¬ idx < 0)]
  have hto : idx.toNat = j := by omega
  by_cases hlen : j < l.length
  · rw [hto, List.getD_eq_getElem?_getD, List.getElem?_set_self hlen, hv]
    rfl
  · exact List.getD_eq_default _ _ (by rw [List.length_set]; omega)

lemma setZ_getD_preserve (l : List ℚ) (idx : ℤ) (v : ℚ) (j : ℕ)
    (hv : v = 0) (h0 : l.getD j 0 = 0) : (setZ l idx v).getD j 0 = 0 := by
  by_cases hj : (j : ℤ) = idx
  · exact setZ_getD_zero_write l idx v j hv hj
  · rw [setZ]
    by_cases hneg : idx < 0
    · rwa [if_pos hneg]
    · rw [if_neg hneg]
      by_cases hlen : j < l.length
      · rw [List.getD_eq_getElem?_getD, List.getElem?_set_ne (by omega), ←
          List.getD_eq_getElem?_getD]
        exact h0
      · exact List.getD_eq_default _ _ (by rw [List.length_set]; omega)

lemma foldl_getD_zero_preserved (f : List ℚ → ℕ → List ℚ) (j : ℕ)
    (hf : ∀ acc t, acc.getD j 0 = 0 → (f acc t).getD j 0 = 0) :
    ∀ (ts : List ℕ) (l : List ℚ), l.getD j 0 = 0 → (ts.foldl f l).getD j 0 = 0 := by
  intro ts
  induction ts with
  | nil => intro l h; exact h
  | cons t ts ih =>
    intro l h
    rw [List.foldl_cons]
    exact ih _ (hf l t h)

lemma foldl_getD_zero_covered (f : List ℚ → ℕ → List ℚ) (j : ℕ)
    (hf : ∀ acc t, acc.getD j 0 = 0 → (f acc t).getD j 0 = 0)
    (t0 : ℕ) (hcov : ∀ acc, (f acc t0).getD j 0 = 0) :
    ∀ (ts : List ℕ) (l : List ℚ), t0 ∈ ts → (ts.foldl f l).getD j 0 = 0 := by
  intro ts
  induction ts with
  | nil => intro l h; cases h
  | cons t ts ih =>
    intro l hmem
    rw [List.foldl_cons]
    rcases List.mem_cons.mp hmem with h | h
    · subst h
      exact foldl_getD_zero_preserved f j hf ts _ (hcov l)
    · exact ih _ h

lemma stutterWrite_getD_zero (sd : ℕ) (i len : ℤ) (chunk out : List ℚ) (j : ℕ)
    (hchunk : ∀ k, chunk.getD k 0 = 0)
    (hcase : out.getD j 0 = 0 ∨ (i ≤ (j : ℤ) ∧ (j : ℤ) < i + sd ∧ (j : ℤ) < len)) :
    (stutterWrite sd i len chunk out).getD j 0 = 0 := by
  rw [stutterWrite]
  have hf : ∀ (acc : List ℚ) (t : ℕ), acc.getD j 0 = 0 →
      ((fun (acc : List ℚ) (t : ℕ) =>
        if i + (t : ℤ) < len then setZ acc (i + (t : ℤ)) (chunk.getD (t % chunk.length) 0)
        else acc) acc t).getD j 0 = 0 := by
    intro acc t hz
    by_cases hP : i + (t : ℤ) < len
    · simpa [hP] using setZ_getD_preserve acc (i + (t : ℤ)) _ j (hchunk _) hz
    · simpa [hP] using hz
  rcases hcase with h0 | ⟨h1, h2, h3⟩
  · exact foldl_getD_zero_preserved _ j hf _ out h0
  · refine foldl_getD_zero_covered _ j hf ((j : ℤ) - i).toNat ?_ _ out ?_
    · intro acc
      have ht : ((((j : ℤ) - i).toNat) : ℤ) = (j : ℤ) - i := Int.toNat_of_nonneg (by omega)
      have hP : i + ((((j : ℤ) - i).toNat) : ℤ) < len := by rw [ht]; omega
      show (if i + ((((j : ℤ) - i).toNat) : ℤ) < len then
          setZ acc (i + ((((j : ℤ) - i).toNat) : ℤ))
            (chunk.getD ((((j : ℤ) - i).toNat) % chunk.length) 0)
        else acc).getD j 0 = 0
      rw [if_pos hP]
      exact setZ_getD_zero_write acc _ _ j (hchunk _) (by rw [ht]; ring)
    · rw [List.mem_range]
      omega

lemma dropWrite_getD_zero (i len : ℤ) (out : List ℚ) (j : ℕ)
    (hcase : out.getD j 0 = 0 ∨
      (i ≤ (j : ℤ) ∧ (j : ℤ) < i + glitchChunkSize ∧ (j : ℤ) < len)) :
    (dropWrite i len out).getD j 0 = 0 := by
  rw [dropWrite]
  have hf : ∀ (acc : List ℚ) (t : ℕ), acc.getD j 0 = 0 →
      ((fun (acc : List ℚ) (t : ℕ) =>
        if i + (t : ℤ) < len then setZ acc (i + (t : ℤ)) 0 else acc) acc t).getD j 0 = 0 := by
    intro acc t hz
    by_cases hP : i + (t : ℤ) < len
    · simpa [hP] using setZ_getD_preserve acc (i + (t : ℤ)) _ j rfl hz
    · simpa [hP] using hz
  rcases hcase with h0 | ⟨h1, h2, h3⟩
  · exact foldl_getD_zero_preserved _ j hf _ out h0
  · refine foldl_getD_zero_covered _ j hf ((j : ℤ) - i).toNat ?_ _ out ?_
    · intro acc
      have ht : ((((j : ℤ) - i).toNat) : ℤ) = (j : ℤ) - i := Int.toNat_of_nonneg (by omega)
      have hP : i + ((((j : ℤ) - i).toNat) : ℤ) < len := by rw [ht]; omega
      show (if i + ((((j : ℤ) - i).toNat) : ℤ) < len then
          setZ acc (i + ((((j : ℤ) - i).toNat) : ℤ)) 0 else acc).getD j 0 = 0
      rw [if_pos hP]
      exact setZ_getD_zero_write acc _ _ j rfl (by rw [ht]; ring)
    · rw [List.mem_range]
      omega

lemma stutterChunk_getD_zero (s : GlitchState) (hi : 0 ≤ s.i)
    (hzero : ∀ j : ℕ, (j : ℤ) < s.i → s.out.getD j 0 = 0) :
    ∀ k : ℕ, (stutterChunk s).getD k 0 = 0 := by
  intro k
  by_cases hk : k < (stutterChunk s).length
  · have hk2 := hk
    rw [stutterChunk, List.length_take, List.length_drop] at hk2
    rw [stutterChunk, List.getD_eq_getElem?_getD, List.getElem?_take,
      if_pos (lt_min_iff.mp hk2).1, List.getElem?_drop, ← List.getD_eq_getElem?_getD]
    apply hzero
    have h1 : (max 0 (s.i - glitchChunkSize)).toNat + k < s.i.toNat := by omega
    omega
  · exact List.getD_eq_default _ _ (le_of_not_lt hk)

lemma glitchStep_zero_invariant (sr : ℚ) (g : GlitchConfig) (rand : ℕ → ℚ)
    (s : GlitchState) (hdrop : g.dropChance = 1) (hrand : ∀ k, rand k < 1)
    (hsd : 0 ≤ stutterSamples sr g) (hi : 0 ≤ s.i)
    (hzero : ∀ j : ℕ, (j : ℤ) < s.i → s.out.getD j 0 = 0)
    (_hlt : s.i < (s.out.length : ℤ)) :
    0 ≤ (glitchStep sr g rand s).i ∧
    (∀ j : ℕ, (j : ℤ) < (glitchStep sr g rand s).i →
      (glitchStep sr g rand s).out.getD j 0 = 0) := by
  have hdropfire : rand (s.cnt + 1) < g.dropChance := by
    rw [hdrop]
    exact hrand _
  have hchunkzero := stutterChunk_getD_zero s hi hzero
  rw [glitchStep]
  simp only [hdropfire, if_true]
  by_cases h1 : rand s.cnt < g.stutterChance
  · by_cases h2 : 0 < (stutterChunk s).length
    · simp only [h1, h2, if_true]
      refine ⟨by simp only [glitchChunkSize]; omega, ?_⟩
      intro j hj
      simp only [glitchChunkSize] at hj ⊢
      have hj2 : (j : ℤ) < s.i + (stutterSamples sr g).toNat := by omega
      apply dropWrite_getD_zero
      left
      by_cases hjlen : (j : ℤ) < (s.out.length : ℤ)
      · apply stutterWrite_getD_zero _ _ _ _ _ _ hchunkzero
        by_cases hjlt : (j : ℤ) < s.i
        · exact Or.inl (hzero j hjlt)
        · exact Or.inr ⟨by omega, by omega, hjlen⟩
      · exact List.getD_eq_default _ _ (by rw [stutterWrite_length]; omega)
    · simp only [h1, h2, if_true, if_false]
      refine ⟨by simp only [glitchChunkSize]; omega, ?_⟩
      intro j hj
      simp only [glitchChunkSize] at hj ⊢
      apply dropWrite_getD_zero
      by_cases hjlt : (j : ℤ) < s.i
      · exact Or.inl (hzero j hjlt)
      · by_cases hjlen : (j : ℤ) < (s.out.length : ℤ)
        · exact Or.inr ⟨by omega, by simp only [glitchChunkSize]; omega, hjlen⟩
        · exact Or.inl (List.getD_eq_default _ _ (by omega))
  · simp only [h1, if_true, if_false]
    refine ⟨by simp only [glitchChunkSize]; omega, ?_⟩
    intro j hj
    simp only [glitchChunkSize] at hj ⊢
    apply dropWrite_getD_zero
    by_cases hjlt : (j : ℤ) < s.i
    · exact Or.inl (hzero j hjlt)
    · by_cases hjlen : (j : ℤ) < (s.out.length : ℤ)
      · exact Or.inr ⟨by omega, by simp only [glitchChunkSize]; omega, hjlen⟩
      · exact Or.inl (List.getD_eq_default _ _ (by omega))

lemma glitchLoop_zero (sr : ℚ) (g : GlitchConfig) (rand : ℕ → ℚ)
    (hdrop : g.dropChance = 1) (hrand : ∀ k, rand k < 1)
    (hsd : 0 ≤ stutterSamples sr g) :
    ∀ (fuel : ℕ) (s : GlitchState), 0 ≤ s.i →
      (∀ j : ℕ, (j : ℤ) < s.i → s.out.getD j 0 = 0) →
      ∀ s2, glitchLoop sr g rand fuel s = some s2 →
        ∀ j : ℕ, s2.out.getD j 0 = 0 := by
  intro fuel
  induction fuel with
  | zero =>
    intro s hi hzero s2 heq j
    rw [glitchLoop] at heq
    by_cases h : s.i < (s.out.length : ℤ)
    · rw [if_pos h] at heq
      cases heq
    · rw [if_neg h] at heq
      obtain rfl : s = s2 := by injection heq
      by_cases hj : (j : ℤ) < s.i
      · exact hzero j hj
      · exact List.getD_eq_default _ _ (by omega)
  | succ fuel ih =>
    intro s hi hzero s2 heq j
    rw [glitchLoop] at heq
    by_cases h : s.i < (s.out.length : ℤ)
    · rw [if_pos h] at heq
      obtain ⟨hi2, hz2⟩ := glitchStep_zero_invariant sr g rand s hdrop hrand hsd hi hzero h
      exact ih (glitchStep sr g rand s) hi2 hz2 s2 heq j
    · rw [if_neg h] at heq
      obtain rfl : s = s2 := by injection heq
      by_cases hj : (j : ℤ) < s.i
      · exact hzero j hj
      · exact List.getD_eq_default _ _ (by omega)

/-- C8: with glitches enabled, dropChance = 1, a nonnegative stutter sample
count, and every random draw strictly below 1, any returning run of
applyAudioGlitches zeroes the entire buffer: every sample of the result
is 0, for every input signal and every draw sequence. -/
theorem dropChance_one_zeroes_buffer (sr : ℚ) (g : GlitchConfig) (rand : ℕ → ℚ)
    (signal : List ℚ) (fuel : ℕ) (out : List ℚ)
    (hen : g.enabled = true) (hdrop : g.dropChance = 1) (hrand : ∀ k, rand k < 1)
    (hsd : 0 ≤ stutterSamples sr g)
    (hout : applyAudioGlitches sr g rand signal fuel = some out) :
    ∀ j : ℕ, out.getD j 0 = 0 := by
  rw [applyAudioGlitches, if_neg (by simp [hen])] at hout
  cases hloop : glitchLoop sr g rand fuel ⟨0, 0, signal⟩ with
  | none =>
    rw [hloop] at hout
    cases hout
  | some s2 =>
    rw [hloop] at hout
    obtain rfl : s2.out = out := by injection hout
    exact glitchLoop_zero sr g rand hdrop hrand hsd fuel ⟨0, 0, signal⟩ le_rfl
      (fun j hj => absurd hj (not_lt.mpr (Int.natCast_nonneg j))) s2 hloop

/-- Witness for C8: a concrete run (dropChance 1, stutter off) over [1, 2, 3]
returns after one chunk iteration, and every sample of the result is 0. -/
theorem dropChance_one_zeroes_buffer_witness :
    applyAudioGlitches 0 ⟨true, 0, 0, 1⟩ (fun _ => 0) [1, 2, 3] 1
      = some (dropWrite 0 3 [1, 2, 3]) ∧
    (dropWrite 0 3 [1, 2, 3]).getD 0 0 = 0 ∧
    (dropWrite 0 3 [1, 2, 3]).getD 1 0 = 0 ∧
    (dropWrite 0 3 [1, 2, 3]).getD 2 0 = 0 := by
  have hstep : glitchStep 0 ⟨true, 0, 0, 1⟩ (fun _ => 0) ⟨0, 0, [1, 2, 3]⟩
      = ⟨2, 512, dropWrite 0 3 [1, 2, 3]⟩ := by
    rw [glitchStep]
    norm_num [stutterChunk, glitchChunkSize]
  have heq : applyAudioGlitches 0 ⟨true, 0, 0, 1⟩ (fun _ => 0) [1, 2, 3] 1
      = some (dropWrite 0 3 [1, 2, 3]) := by
    rw [applyAudioGlitches, if_neg (by simp)]
    rw [glitchLoop, if_pos (by norm_num), hstep, glitchLoop,
      if_neg (by rw [dropWrite_length]; norm_num)]
    rfl
  have hz := dropChance_one_zeroes_buffer 0 ⟨true, 0, 0, 1⟩ (fun _ => 0) [1, 2, 3] 1
    (dropWrite 0 3 [1, 2, 3]) rfl rfl (fun k => by norm_num)
    (by norm_num [stutterSamples]) heq
  exact ⟨heq, hz 0, hz 1, hz 2⟩

lemma c9_step_cycle (c : ℕ) :
    glitchStep 44100 ⟨true, 1, 0, 0⟩ (fun _ => 0) ⟨c, 512, List.replicate 600 1⟩
      = ⟨c + 2, 512, List.replicate 600 1⟩ := by
  rw [glitchStep]
  norm_num [stutterChunk, stutterSamples, glitchChunkSize, stutterWrite]

lemma c9_loop_none : ∀ (fuel c : ℕ),
    glitchLoop 44100 ⟨true, 1, 0, 0⟩ (fun _ => 0) fuel ⟨c, 512, List.replicate 600 1⟩
      = none := by
  intro fuel
  induction fuel with
  | zero =>
    intro c
    rw [glitchLoop, if_pos (by norm_num)]
  | succ fuel ih =>
    intro c
    rw [glitchLoop, if_pos (by norm_num), c9_step_cycle]
    exact ih (c + 2)

/-- C9 counterexample: with the stutter branch firing on every draw and a
stutter duration converting to zero samples, the chunk cursor's net advance
per iteration is zero and the loop never terminates, for the concrete
600-sample input. -/
theorem applyAudioGlitches_nonterminating :
    ¬ glitchTerminates 44100 ⟨true, 1, 0, 0⟩ (fun _ => 0) (List.replicate 600 1) := by
  rintro ⟨fuel, s, hs⟩
  have hstep0 : glitchStep 44100 ⟨true, 1, 0, 0⟩ (fun _ => 0) ⟨0, 0, List.replicate 600 1⟩
      = ⟨2, 512, List.replicate 600 1⟩ := by
    rw [glitchStep]
    norm_num [stutterChunk, stutterSamples, glitchChunkSize]
  cases fuel with
  | zero =>
    rw [glitchLoop, if_pos (by norm_num)] at hs
    cases hs
  | succ fuel =>
    rw [glitchLoop, if_pos (by norm_num), hstep0, c9_loop_none] at hs
    cases hs

/-- The per-cell mask combination of resynthesizeAudio.  With editing
enabled, the complex cell is scaled by 10^(gainDb/20) and, when the
generative loudness exceeds -900, a tone of magnitude 10^(genDb/20) at the
drawn random phase is added.  With editing disabled the cell is copied. -/
noncomputable def maskCell (mask : SpectralMask) (spectralEditEnabled : Bool)
    (phase : ℕ → ℕ → ℝ) (b f : ℕ) (z : ℝ × ℝ) : ℝ × ℝ :=
  if spectralEditEnabled then
    let gain := (10 : ℝ) ^ (mask.gainDbLayer f b / 20)
    let genDb := mask.generativeDbLayer f b
    if genDb > -900 then
      (z.1 * gain + (10 : ℝ) ^ (genDb / 20) * Real.cos (phase f b),
        z.2 * gain + (10 : ℝ) ^ (genDb / 20) * Real.sin (phase f b))
    else (z.1 * gain, z.2 * gain)
  else z

/-- The mask application stage of resynthesizeAudio, bin-major over the
numBins x numFrames grid of the input spectrogram. -/
noncomputable def applyMaskStage (stft : List (List (ℝ × ℝ))) (mask : SpectralMask)
    (spectralEditEnabled : Bool) (phase : ℕ → ℕ → ℝ) : List (List (ℝ × ℝ)) :=
  (List.range stft.length).map (fun b =>
    (List.range (stft.headD []).length).map (fun f =>
      maskCell mask spectralEditEnabled phase b f ((stft.getD b []).getD f (0, 0))))

lemma grid_rebuild (stft : List (List (ℝ × ℝ))) (g : ℕ → ℕ → (ℝ × ℝ) → (ℝ × ℝ))
    (hrect : ∀ row ∈ stft, row.length = (stft.headD []).length)
    (hg : ∀ b f z, g b f z = z) :
    (List.range stft.length).map (fun b =>
      (List.range (stft.headD []).length).map (fun f =>
        g b f ((stft.getD b []).getD f (0, 0)))) = stft := by
  apply List.ext_getElem (by simp)
  intro b h1 h2
  rw [List.getElem_map, List.getElem_range]
  have hlen : stft[b].length = (stft.headD []).length :=
    hrect _ (List.getElem_mem h2)
  apply List.ext_getElem (by simpa using hlen.symm)
  intro f hf1 hf2
  have hb : stft.getD b [] = stft[b] := by
    rw [List.getD_eq_getElem?_getD, List.getElem?_eq_getElem h2, Option.getD_some]
  rw [List.getElem_map, List.getElem_range, hg, hb]
  rw [List.getD_eq_getElem?_getD, List.getElem?_eq_getElem hf2, Option.getD_some]

/-- C6: applying an all-neutral SpectralMask with editing enabled returns
the spectrogram bit-for-bit unchanged, and applying any mask with editing
disabled is the identity copy, for every rectangular spectrogram and every
random phase draw. -/
theorem applyMaskStage_identity (stft : List (List (ℝ × ℝ))) (mask : SpectralMask)
    (F B : ℕ) (phase : ℕ → ℕ → ℝ)
    (hrect : ∀ row ∈ stft, row.length = (stft.headD []).length) :
    applyMaskStage stft (SpectralMask.create F B) true phase = stft ∧
    applyMaskStage stft mask false phase = stft := by
  constructor
  · rw [applyMaskStage]
    apply grid_rebuild _ _ hrect
    intro b f z
    rw [maskCell]
    simp only [SpectralMask.create, if_true]
    rw [if_neg (by norm_num)]
    norm_num [Real.rpow_zero]
  · rw [applyMaskStage]
    apply grid_rebuild _ _ hrect
    intro b f z
    rw [maskCell]
    simp

/-- Witness for C6: the identity holds on a concrete 1-bin, 2-frame
spectrogram. -/
theorem applyMaskStage_identity_witness :
    applyMaskStage [[(1, 2), (3, 4)]] (SpectralMask.create 2 1) true (fun _ _ => 0)
      = [[(1, 2), (3, 4)]] ∧
    applyMaskStage [[(1, 2), (3, 4)]] (SpectralMask.create 2 1) false (fun _ _ => 0)
      = [[(1, 2), (3, 4)]] :=
  applyMaskStage_identity [[(1, 2), (3, 4)]] (SpectralMask.create 2 1) 2 1 (fun _ _ => 0)
    (by intro row hrow; simp at hrow; subst hrow; rfl)


/-- Twiddle factor exp(2·π·i·t/N) of the discrete Fourier transform.
Modelled from the spec: the repository delegates the forward/inverse
complex transform over a fixed block size to an external FFT collaborator
(ComplexTransform in the spec); it is embedded as the exact DFT. -/
noncomputable def twiddle (N : ℕ) (t : ℤ) : ℂ :=
  Complex.exp (2 * Real.pi * Complex.I * t / N)

/-- Forward DFT of a real block.  Modelled from the spec (ComplexTransform,
forward direction). -/
noncomputable def dftR (N : ℕ) (x : ℕ → ℝ) (k : ℕ) : ℂ :=
  ∑ j ∈ Finset.range N, (x j : ℂ) * twiddle N (-(j * k))

/-- Inverse DFT with 1/N normalization.  Modelled from the spec
(ComplexTransform, inverse direction). -/
noncomputable def idft (N : ℕ) (X : ℕ → ℂ) (j : ℕ) : ℂ :=
  (∑ k ∈ Finset.range N, X k * twiddle N (j * k)) / N

lemma twiddle_zero (N : ℕ) : twiddle N 0 = 1 := by
  simp [twiddle]

lemma twiddle_add (N : ℕ) (a b : ℤ) : twiddle N (a + b) = twiddle N a * twiddle N b := by
  rw [twiddle, twiddle, twiddle, ← Complex.exp_add]
  congr 1
  push_cast
  ring

lemma twiddle_pow (N : ℕ) (d : ℤ) (m : ℕ) : twiddle N d ^ m = twiddle N (m * d) := by
  rw [twiddle, twiddle, ← Complex.exp_nat_mul]
  congr 1
  push_cast
  ring

lemma twiddle_int_mul_N (N : ℕ) (hN : 0 < N) (m : ℤ) : twiddle N (m * N) = 1 := by
  rw [twiddle]
  have hNne : (N : ℂ) ≠ 0 := Nat.cast_ne_zero.mpr (by omega)
  have harg : 2 * (Real.pi : ℂ) * Complex.I * ((m * N : ℤ) : ℂ) / N
      = (m : ℂ) * (2 * Real.pi * Complex.I) := by
    push_cast
    field_simp
    ring
  rw [harg]
  exact Complex.exp_int_mul_two_pi_mul_I m

lemma twiddle_ne_one (N : ℕ) (hN : 0 < N) (d : ℤ) (hd : d ≠ 0) (hdlt : d.natAbs < N) :
    twiddle N d ≠ 1 := by
  intro hcontra
  rw [twiddle, Complex.exp_eq_one_iff] at hcontra
  obtain ⟨m, hm⟩ := hcontra
  have hNne : (N : ℂ) ≠ 0 := Nat.cast_ne_zero.mpr (by omega)
  have hpi : (Real.pi : ℂ) ≠ 0 := by
    exact_mod_cast Real.pi_ne_zero
  have h2I : (2 : ℂ) * Real.pi * Complex.I ≠ 0 := by
    simp [Complex.I_ne_zero, hpi]
  have h1 : 2 * (Real.pi : ℂ) * Complex.I * d = m * (2 * Real.pi * Complex.I) * N := by
    calc 2 * (Real.pi : ℂ) * Complex.I * d
        = (2 * (Real.pi : ℂ) * Complex.I * d / N) * N := by field_simp
      _ = (m * (2 * Real.pi * Complex.I)) * N := by rw [hm]
  have h2 : (2 * (Real.pi : ℂ) * Complex.I) * (d : ℂ)
      = (2 * (Real.pi : ℂ) * Complex.I) * ((m : ℂ) * N) := by
    linear_combination h1
  have hd2 : (d : ℂ) = (m : ℂ) * N := mul_left_cancel₀ h2I h2
  have hdz : d = m * N := by exact_mod_cast hd2
  rcases eq_or_ne m 0 with hm0 | hm0
  · rw [hm0, zero_mul] at hdz
    exact hd hdz
  · have habs : d.natAbs = m.natAbs * N := by
      rw [hdz, Int.natAbs_mul]
      simp
    have hm1 : 1 ≤ m.natAbs := Int.natAbs_pos.mpr hm0
    have hge : N ≤ m.natAbs * N := Nat.le_mul_of_pos_left N hm1
    omega

lemma twiddle_geom_sum (N : ℕ) (hN : 0 < N) (d : ℤ) (hd : d ≠ 0) (hdlt : d.natAbs < N) :
    ∑ k ∈ Finset.range N, twiddle N (k * d) = 0 := by
  have hrw : ∀ k ∈ Finset.range N, twiddle N (k * d) = twiddle N d ^ k :=
    fun k _ => (twiddle_pow N d k).symm
  rw [Finset.sum_congr rfl hrw, geom_sum_eq (twiddle_ne_one N hN d hd hdlt) N]
  rw [twiddle_pow, show ((N : ℤ) * d) = d * N by ring, twiddle_int_mul_N N hN d]
  simp

/-- Discrete Fourier inversion: the normalized inverse transform of the
forward transform returns the block exactly. -/
lemma dft_inversion (N : ℕ) (hN : 0 < N) (x : ℕ → ℝ) (j : ℕ) (hj : j < N) :
    idft N (dftR N x) j = (x j : ℂ) := by
  rw [idft]
  have hexp : ∀ k ∈ Finset.range N, dftR N x k * twiddle N (j * k)
      = ∑ m ∈ Finset.range N, (x m : ℂ) * twiddle N (((j : ℤ) - m) * k) := by
    intro k _
    rw [dftR, Finset.sum_mul]
    refine Finset.sum_congr rfl (fun m _ => ?_)
    rw [mul_assoc, ← twiddle_add]
    congr 2
    ring
  rw [Finset.sum_congr rfl hexp, Finset.sum_comm]
  have hinner : ∀ m ∈ Finset.range N,
      (∑ k ∈ Finset.range N, (x m : ℂ) * twiddle N (((j : ℤ) - m) * k))
        = if m = j then (x m : ℂ) * N else 0 := by
    intro m hm
    rw [← Finset.mul_sum]
    by_cases hmj : m = j
    · subst hmj
      rw [if_pos rfl]
      have : ∀ k ∈ Finset.range N, twiddle N (((m : ℤ) - m) * k) = 1 := by
        intro k _
        rw [sub_self, zero_mul, twiddle_zero]
      rw [Finset.sum_congr rfl this, Finset.sum_const, Finset.card_range]
      simp
    · rw [if_neg hmj]
      have hrw2 : ∀ k ∈ Finset.range N,
          twiddle N (((j : ℤ) - m) * k) = twiddle N (k * ((j : ℤ) - m)) := by
        intro k _
        congr 1
        ring
      rw [Finset.sum_congr rfl hrw2, twiddle_geom_sum N hN ((j : ℤ) - m)
        (sub_ne_zero.mpr (by exact_mod_cast Ne.symm hmj))
        (by
          have h1 : m < N := Finset.mem_range.mp hm
          omega), mul_zero]
  rw [Finset.sum_congr rfl hinner, Finset.sum_ite_eq' (Finset.range N) j
    (fun m => (x m : ℂ) * N), if_pos (Finset.mem_range.mpr hj)]
  have hNne : (N : ℂ) ≠ 0 := Nat.cast_ne_zero.mpr (by omega)
  field_simp

lemma twiddle_conj (N : ℕ) (t : ℤ) :
    (starRingEnd ℂ) (twiddle N t) = twiddle N (-t) := by
  rw [twiddle, twiddle, ← Complex.exp_conj]
  congr 1
  rw [map_div₀]
  push_cast
  simp only [map_mul, Complex.conj_I, map_ofNat, Complex.conj_ofReal, map_intCast,
    map_natCast]
  ring

/-- Conjugate symmetry of the DFT of a real block: bin N-k is the conjugate
of bin k. -/
lemma dftR_conj_symm (N : ℕ) (hN : 0 < N) (x : ℕ → ℝ) (k : ℕ) (hk : k ≤ N) :
    dftR N x (N - k) = (starRingEnd ℂ) (dftR N x k) := by
  rw [dftR, dftR, map_sum]
  refine Finset.sum_congr rfl (fun m hm => ?_)
  rw [map_mul, Complex.conj_ofReal, twiddle_conj]
  congr 1
  have hcast : ((N - k : ℕ) : ℤ) = (N : ℤ) - k := by omega
  have harg : -((m : ℤ) * ((N - k : ℕ) : ℤ)) = (-(m : ℤ)) * N + -(-((m : ℤ) * k)) := by
    rw [hcast]
    ring
  rw [harg, twiddle_add, twiddle_int_mul_N N hN (-(m : ℤ)), one_mul, neg_neg]

/-- The conjugate mirror of the stored half-spectrum, as istftCooperative
rebuilds the full frame: bins 0..N/2 are stored, bins above N/2 are the
conjugates of their reflection N-k. -/
noncomputable def mirrorSpectrum (N : ℕ) (half : ℕ → ℂ) (k : ℕ) : ℂ :=
  if k ≤ N / 2 then half k else (starRingEnd ℂ) (half (N - k))

lemma mirror_dftR (N : ℕ) (hN : 0 < N) (x : ℕ → ℝ) (k : ℕ) (hk : k < N) :
    mirrorSpectrum N (dftR N x) k = dftR N x k := by
  rw [mirrorSpectrum]
  by_cases h : k ≤ N / 2
  · rw [if_pos h]
  · rw [if_neg h, dftR_conj_symm N hN x k (le_of_lt hk)]
    exact Complex.conj_conj _

/-- The Hann analysis window w[i] = 0.5*(1 - cos(2*π*i/(N-1))). -/
noncomputable def hannWindow (N : ℕ) (i : ℕ) : ℝ :=
  1 / 2 * (1 - Real.cos (2 * Real.pi * i / ((N : ℝ) - 1)))

/-- Number of analysis frames: the loop for (i = 0; i <= L - N; i += h). -/
def numFrames (L N h : ℕ) : ℕ := if L < N then 0 else (L - N) / h + 1

/-- Bin k of the windowed analysis frame starting at sample off. -/
noncomputable def stftFrameBin (signal : ℕ → ℝ) (N off k : ℕ) : ℂ :=
  dftR N (fun j => hannWindow N j * signal (off + j)) k

/-- The transpose helper of the source (empty when the input or its first
row is empty); out-of-range reads default to 0 (inputs are rectangular). -/
noncomputable def transposeC (m : List (List ℂ)) : List (List ℂ) :=
  if m.headD [] = [] then []
  else (List.range (m.headD []).length).map (fun c => m.map (fun row => row.getD c 0))

/-- The frame-major list of half-spectra produced by the stft loop. -/
noncomputable def stftFramesMajor (signal : ℕ → ℝ) (L N h : ℕ) : List (List ℂ) :=
  (List.range (numFrames L N h)).map (fun fr =>
    (List.range (N / 2 + 1)).map (fun k => stftFrameBin signal N (fr * h) k))

/-- stft: the bin-major complex spectrogram [bins][frames]. -/
noncomputable def stftZxx (signal : ℕ → ℝ) (L N h : ℕ) : List (List ℂ) :=
  transposeC (stftFramesMajor signal L N h)

/-- Sample j of the inverse transform of the mirrored one-frame spectrum
(the real part, as fromComplexArray extracts). -/
noncomputable def istftFrameSample (frame : ℕ → ℂ) (N j : ℕ) : ℝ :=
  (idft N (mirrorSpectrum N frame) j).re

/-- The overlap-add accumulation at output sample i before normalization:
each covering frame contributes window[i-off] times its inverse-transform
sample i-off. -/
noncomputable def istftRaw (frames : ℕ → ℕ → ℂ) (nF N h : ℕ) (i : ℕ) : ℝ :=
  ∑ fr ∈ Finset.range nF,
    if fr * h ≤ i ∧ i < fr * h + N then
      hannWindow N (i - fr * h) * istftFrameSample (frames fr) N (i - fr * h)
    else 0

/-- The accumulated squared-window sum at output sample i. -/
noncomputable def windowSumSq (nF N h : ℕ) (i : ℕ) : ℝ :=
  ∑ fr ∈ Finset.range nF,
    if fr * h ≤ i ∧ i < fr * h + N then hannWindow N (i - fr * h) ^ 2 else 0

/-- The final normalization: divide by the squared-window sum where it
exceeds 1e-9, leave the raw accumulation elsewhere. -/
noncomputable def istftNormalize (raw ws : ℝ) : ℝ :=
  if ws > 1e-9 then raw / ws else raw

/-- istftCooperative: an empty spectrogram returns a zero buffer of the
requested length; otherwise each output sample is the normalized
overlap-add of the windowed inverse transforms.  (The cooperative yield of
the source is scheduling only and does not affect the numbers.) -/
noncomputable def istftCooperative (ZxxTransposed : List (List ℂ)) (N h L : ℕ) :
    List ℝ :=
  if ZxxTransposed.length = 0 then List.replicate L 0
  else
    (List.range L).map (fun i =>
      istftNormalize
        (istftRaw
          (fun fr k => ((transposeC ZxxTransposed).getD fr []).getD k 0)
          (transposeC ZxxTransposed).length N h i)
        (windowSumSq (transposeC ZxxTransposed).length N h i))

/-- The display's SpectrogramData: the matrix plus (bin row, kHz value)
reference labels (the source formats the values as strings; the numeric
content is modelled). -/
structure SpectrogramData where
  data : List (List ℝ)
  freqLabels : List (ℕ × ℚ)

/-- generateSpectrogramData: empty data and labels for a zero-frame
spectrogram; otherwise dB magnitudes 20*log10(|z| + 1e-12) clamped to
[-90, 0], normalized to [0,1], downsampled, with labels at Nyquist,
Nyquist/2 and 0 Hz. -/
noncomputable def generateSpectrogramData (stftResult : List (List ℂ)) (sr : ℚ) :
    SpectrogramData :=
  if stftResult.length = 0 then ⟨[], []⟩
  else
    let normalized := stftResult.map (fun row =>
      row.map (fun c =>
        (max (-90) (min 0 (20 * Real.logb 10 (Complex.abs c + 1e-12))) - (-90)) / 90))
    let displayMatrix := downsampleData normalized
    ⟨displayMatrix,
      [(0, sr / 2 / 1000), (displayMatrix.length / 2, sr / 2 / 2 / 1000),
        (displayMatrix.length - 1, 0)]⟩

/-- C7: a signal shorter than one block produces a zero-frame spectrogram
rather than failing; reconstruction from it returns an all-zero buffer of
the requested length, and visualization returns empty display data and
labels. -/
theorem short_signal_zero_frames (signal : ℕ → ℝ) (L N h OL : ℕ) (sr : ℚ)
    (hL : L < N) :
    stftZxx signal L N h = [] ∧
    istftCooperative (stftZxx signal L N h) N h OL = List.replicate OL 0 ∧
    (∀ i : ℕ, (istftCooperative (stftZxx signal L N h) N h OL).getD i 0 = 0) ∧
    generateSpectrogramData (stftZxx signal L N h) sr = ⟨[], []⟩ := by
  have hempty : stftZxx signal L N h = [] := by
    rw [stftZxx, stftFramesMajor, numFrames, if_pos hL]
    simp [transposeC]
  have hist : istftCooperative (stftZxx signal L N h) N h OL = List.replicate OL 0 := by
    rw [hempty, istftCooperative]
    simp
  refine ⟨hempty, hist, ?_, ?_⟩
  · intro i
    rw [hist, List.getD_eq_getElem?_getD, List.getElem?_replicate]
    by_cases hi : i < OL <;> simp [hi]
  · rw [hempty, generateSpectrogramData]
    simp

/-- Witness for C7: a 3-sample signal at block size 1024 yields the empty
spectrogram, and the 5-sample reconstruction reads 0 everywhere. -/
theorem short_signal_zero_frames_witness :
    stftZxx (fun _ => 1) 3 1024 512 = [] ∧
    (istftCooperative (stftZxx (fun _ => 1) 3 1024 512) 1024 512 5).getD 2 0 = 0 := by
  have h := short_signal_zero_frames (fun _ => 1) 3 1024 512 5 44100 (by norm_num)
  exact ⟨h.1, h.2.2.1 2⟩

/-- One frame of the inverse pipeline reproduces the windowed block: sample
j of the inverse transform of the mirrored half-spectrum of a windowed
frame equals window[j] times the original sample. -/
lemma istftFrameSample_eq (signal : ℕ → ℝ) (N off j : ℕ) (hN : 0 < N) (hj : j < N) :
    istftFrameSample (fun k => stftFrameBin signal N off k) N j
      = hannWindow N j * signal (off + j) := by
  rw [istftFrameSample]
  have hfun : (fun k => stftFrameBin signal N off k)
      = dftR N (fun t => hannWindow N t * signal (off + t)) := rfl
  have hmir : ∀ k ∈ Finset.range N,
      mirrorSpectrum N (fun k => stftFrameBin signal N off k) k * twiddle N (j * k)
        = dftR N (fun t => hannWindow N t * signal (off + t)) k * twiddle N (j * k) := by
    intro k hk
    rw [hfun, mirror_dftR N hN _ k (Finset.mem_range.mp hk)]
  rw [idft, Finset.sum_congr rfl hmir, ← idft,
    dft_inversion N hN (fun t => hannWindow N t * signal (off + t)) j hj]
  exact Complex.ofReal_re _

lemma istftFrameSample_congr (g1 g2 : ℕ → ℂ) (N j : ℕ)
    (hg : ∀ k, k ≤ N / 2 → g1 k = g2 k) :
    istftFrameSample g1 N j = istftFrameSample g2 N j := by
  rw [istftFrameSample, istftFrameSample]
  congr 1
  rw [idft, idft]
  congr 1
  refine Finset.sum_congr rfl (fun k hk => ?_)
  congr 1
  rw [mirrorSpectrum, mirrorSpectrum]
  by_cases hk2 : k ≤ N / 2
  · rw [if_pos hk2, if_pos hk2, hg k hk2]
  · rw [if_neg hk2, if_neg hk2, hg (N - k) (by omega)]

lemma istftRaw_congr (f1 f2 : ℕ → ℕ → ℂ) (nF N h i : ℕ)
    (hf : ∀ fr k, fr < nF → k ≤ N / 2 → f1 fr k = f2 fr k) :
    istftRaw f1 nF N h i = istftRaw f2 nF N h i := by
  rw [istftRaw, istftRaw]
  refine Finset.sum_congr rfl (fun fr hfr => ?_)
  by_cases hcov : fr * h ≤ i ∧ i < fr * h + N
  · rw [if_pos hcov, if_pos hcov,
      istftFrameSample_congr (f1 fr) (f2 fr) N _
        (fun k hk => hf fr k (Finset.mem_range.mp hfr) hk)]
  · rw [if_neg hcov, if_neg hcov]

/-- The overlap-add accumulation of the unedited spectrogram is exactly the
original sample scaled by the accumulated squared-window sum. -/
lemma istftRaw_eq (signal : ℕ → ℝ) (nF N h : ℕ) (hN : 0 < N) (i : ℕ) :
    istftRaw (fun fr k => stftFrameBin signal N (fr * h) k) nF N h i
      = signal i * windowSumSq nF N h i := by
  rw [istftRaw, windowSumSq, Finset.mul_sum]
  refine Finset.sum_congr rfl (fun fr _ => ?_)
  by_cases hcov : fr * h ≤ i ∧ i < fr * h + N
  · rw [if_pos hcov, if_pos hcov,
      istftFrameSample_eq signal N (fr * h) (i - fr * h) hN (by omega),
      Nat.add_sub_cancel' hcov.1]
    ring
  · rw [if_neg hcov, if_neg hcov, mul_zero]

lemma getD_map_range {α : Type} (W c : ℕ) (f : ℕ → α) (d : α) (hc : c < W) :
    ((List.range W).map f).getD c d = f c := by
  rw [List.getD_eq_getElem?_getD, List.getElem?_map, List.getElem?_range hc]
  rfl

lemma headD_map_range {α : Type} (W : ℕ) (f : ℕ → α) (d : α) (hW : 0 < W) :
    ((List.range W).map f).headD d = f 0 := by
  obtain ⟨n, rfl⟩ : ∃ n, W = n + 1 := ⟨W - 1, by omega⟩
  rw [List.range_succ_eq_map]
  simp

lemma getD_map_list {α β : Type} (l : List α) (g : α → β) (r : ℕ) (d : β) (d2 : α)
    (hr : r < l.length) :
    (l.map g).getD r d = g (l.getD r d2) := by
  rw [List.getD_eq_getElem?_getD, List.getElem?_map, List.getElem?_eq_getElem hr,
    List.getD_eq_getElem?_getD, List.getElem?_eq_getElem hr]
  rfl

lemma transposeC_apply (m : List (List ℂ)) (hne : m.headD [] ≠ []) :
    transposeC m
      = (List.range (m.headD []).length).map (fun c => m.map (fun row => row.getD c 0)) := by
  rw [transposeC, if_neg hne]

lemma transposeC_length (m : List (List ℂ)) (hne : m.headD [] ≠ []) :
    (transposeC m).length = (m.headD []).length := by
  rw [transposeC_apply m hne]
  simp

lemma transposeC_getD_getD (m : List (List ℂ)) (hne : m.headD [] ≠ [])
    (c r : ℕ) (hc : c < (m.headD []).length) (hr : r < m.length) :
    ((transposeC m).getD c []).getD r 0 = (m.getD r []).getD c 0 := by
  rw [transposeC_apply m hne, getD_map_range _ c _ [] hc,
    getD_map_list m _ r 0 [] hr]

lemma stftFramesMajor_length (signal : ℕ → ℝ) (L N h : ℕ) :
    (stftFramesMajor signal L N h).length = numFrames L N h := by
  rw [stftFramesMajor]
  simp

lemma stftFramesMajor_headD (signal : ℕ → ℝ) (L N h : ℕ)
    (hnF : 0 < numFrames L N h) :
    (stftFramesMajor signal L N h).headD []
      = (List.range (N / 2 + 1)).map (fun k => stftFrameBin signal N (0 * h) k) := by
  rw [stftFramesMajor, headD_map_range _ _ [] hnF]

lemma stftFramesMajor_headD_ne (signal : ℕ → ℝ) (L N h : ℕ)
    (hnF : 0 < numFrames L N h) :
    (stftFramesMajor signal L N h).headD [] ≠ [] := by
  rw [stftFramesMajor_headD signal L N h hnF]
  exact List.length_pos.mp (by simp)

lemma stftFramesMajor_getD (signal : ℕ → ℝ) (L N h fr k : ℕ)
    (hfr : fr < numFrames L N h) (hk : k < N / 2 + 1) :
    ((stftFramesMajor signal L N h).getD fr []).getD k 0
      = stftFrameBin signal N (fr * h) k := by
  rw [stftFramesMajor, getD_map_range _ fr _ [] (by omega),
    getD_map_range _ k _ 0 hk]

lemma stftZxx_length (signal : ℕ → ℝ) (L N h : ℕ) (hnF : 0 < numFrames L N h) :
    (stftZxx signal L N h).length = N / 2 + 1 := by
  rw [stftZxx, transposeC_length _ (stftFramesMajor_headD_ne signal L N h hnF),
    stftFramesMajor_headD signal L N h hnF]
  simp

lemma stftZxx_headD_ne (signal : ℕ → ℝ) (L N h : ℕ) (hnF : 0 < numFrames L N h) :
    (stftZxx signal L N h).headD [] ≠ [] := by
  rw [stftZxx, transposeC_apply _ (stftFramesMajor_headD_ne signal L N h hnF),
    headD_map_range _ _ []
      (by rw [stftFramesMajor_headD signal L N h hnF]; simp)]
  apply List.length_pos.mp
  rw [List.length_map, stftFramesMajor_length]
  exact hnF

lemma stftZxx_headD_length (signal : ℕ → ℝ) (L N h : ℕ)
    (hnF : 0 < numFrames L N h) :
    ((stftZxx signal L N h).headD []).length = numFrames L N h := by
  rw [stftZxx, transposeC_apply _ (stftFramesMajor_headD_ne signal L N h hnF),
    headD_map_range _ _ []
      (by rw [stftFramesMajor_headD signal L N h hnF]; simp)]
  rw [List.length_map, stftFramesMajor_length]

lemma stftZxx_transpose_length (signal : ℕ → ℝ) (L N h : ℕ)
    (hnF : 0 < numFrames L N h) :
    (transposeC (stftZxx signal L N h)).length = numFrames L N h := by
  rw [transposeC_length _ (stftZxx_headD_ne signal L N h hnF),
    stftZxx_headD_length signal L N h hnF]

/-- Transposing the bin-major spectrogram back to frame-major recovers each
stored half-spectrum entry. -/
lemma stftZxx_double_transpose (signal : ℕ → ℝ) (L N h : ℕ)
    (hnF : 0 < numFrames L N h) (fr k : ℕ) (hfr : fr < numFrames L N h)
    (hk : k < N / 2 + 1) :
    ((transposeC (stftZxx signal L N h)).getD fr []).getD k 0
      = stftFrameBin signal N (fr * h) k := by
  rw [transposeC_getD_getD _ (stftZxx_headD_ne signal L N h hnF) fr k
    (by rw [stftZxx_headD_length signal L N h hnF]; exact hfr)
    (by rw [stftZxx_length signal L N h hnF]; exact hk)]
  rw [stftZxx, transposeC_getD_getD _ (stftFramesMajor_headD_ne signal L N h hnF) k fr
    (by rw [stftFramesMajor_headD signal L N h hnF]; simpa using hk)
    (by rw [stftFramesMajor_length]; exact hfr)]
  exact stftFramesMajor_getD signal L N h fr k hfr hk

/-- Closed form of one reconstructed sample of the unedited round trip:
the original sample scaled by the squared-window sum, then normalized. -/
lemma istftCooperative_getD (signal : ℕ → ℝ) (L N h : ℕ) (i : ℕ)
    (hN : 0 < N) (hL : ¬ L < N) (hi : i < L) :
    (istftCooperative (stftZxx signal L N h) N h L).getD i 0
      = istftNormalize (signal i * windowSumSq (numFrames L N h) N h i)
          (windowSumSq (numFrames L N h) N h i) := by
  have hnF : 0 < numFrames L N h := by
    rw [numFrames, if_neg hL]
    exact Nat.succ_pos _
  rw [istftCooperative,
    if_neg (by rw [stftZxx_length signal L N h hnF]; omega),
    getD_map_range L i _ 0 hi,
    stftZxx_transpose_length signal L N h hnF,
    istftRaw_congr _ (fun fr k => stftFrameBin signal N (fr * h) k) _ N h i
      (fun fr k hfr hk =>
        stftZxx_double_transpose signal L N h hnF fr k hfr (by omega)),
    istftRaw_eq signal _ N h hN i]

/-- C1 (amended): for the unedited round trip (no mask, no glitches), the
double-windowing plus squared-window-sum normalization makes the
reconstruction exact at every sample where the accumulated window-power
sum exceeds the 1e-9 epsilon — for every signal, every even block size and
every hop.  (Block sizes are even powers of two in the source's domain;
the half-spectrum mirroring is only well-formed there.) -/
theorem istft_exact_where_normalized (signal : ℕ → ℝ) (L N h : ℕ) (i : ℕ)
    (hN : 0 < N) (_hNeven : 2 ∣ N) (_hh : 0 < h) (hL : N ≤ L) (hi : i < L)
    (hws : windowSumSq (numFrames L N h) N h i > 1e-9) :
    (istftCooperative (stftZxx signal L N h) N h L).getD i 0 = signal i := by
  rw [istftCooperative_getD signal L N h i hN (not_lt.mpr hL) hi, istftNormalize,
    if_pos hws]
  have hne : windowSumSq (numFrames L N h) N h i ≠ 0 :=
    ne_of_gt (lt_trans (by norm_num) hws)
  field_simp

/-- Witness for C1 (amended): block size 4, hop 2, the constant-1 signal of
length 4; at sample 1 the window sum is (3/4)^2 > 1e-9 and reconstruction
is exact. -/
theorem istft_exact_where_normalized_witness :
    (istftCooperative (stftZxx (fun _ => 1) 4 4 2) 4 2 4).getD 1 0 = 1 := by
  have hhann : hannWindow 4 1 = 3 / 4 := by
    rw [hannWindow]
    norm_num
    rw [show 2 * Real.pi / 3 = Real.pi - Real.pi / 3 from by ring, Real.cos_pi_sub,
      Real.cos_pi_div_three]
    norm_num
  have hws : windowSumSq (numFrames 4 4 2) 4 2 1 > 1e-9 := by
    have hnF : numFrames 4 4 2 = 1 := by norm_num [numFrames]
    rw [hnF, windowSumSq, Finset.sum_range_one, if_pos (by norm_num), hhann]
    norm_num
  exact istft_exact_where_normalized (fun _ => 1) 4 4 2 1 (by norm_num) (by norm_num)
    (by norm_num) (by norm_num) (by norm_num) hws

/-- The spec scenario's synthetic test signal: a 440 Hz unit sine sampled
at 44100 Hz. -/
noncomputable def sineSignal (n : ℕ) : ℝ := Real.sin (2 * Real.pi * 440 * n / 44100)

/-- C1 counterexample: in the spec's scenario (44100 Hz sine, blockSize
1024, hopSize 512), the reconstruction error at sample 1 exceeds 1e-5 by
three orders of magnitude: the window-power sum there is
hann(1)^2 ≈ 8.9e-11 < 1e-9, so the sample is left unnormalized at
windowSum * x[1] ≈ 0, and the error is about |sin(2π·440/44100)| ≈ 0.0627. -/
theorem roundTrip_error_exceeds_bound :
    1e-5 <
      |sineSignal 1
        - (istftCooperative (stftZxx sineSignal 1024 1024 512) 1024 512 1024).getD 1 0| := by
  have hgetD := istftCooperative_getD sineSignal 1024 1024 512 1 (by norm_num)
    (by norm_num) (by norm_num)
  have hnF : numFrames 1024 1024 512 = 1 := by norm_num [numFrames]
  rw [hnF] at hgetD
  have hwsval : windowSumSq 1 1024 512 1 = hannWindow 1024 1 ^ 2 := by
    rw [windowSumSq, Finset.sum_range_one, if_pos (by norm_num)]
  -- bound the window value at sample 1
  have hπub := Real.pi_lt_d2
  have hπlb := Real.pi_gt_d2
  have hθub : 2 * Real.pi * (1 : ℕ) / ((1024 : ℝ) - 1) ≤ 0.00616 := by
    push_cast
    nlinarith
  have hθlb : 0 ≤ 2 * Real.pi * (1 : ℕ) / ((1024 : ℝ) - 1) := by
    push_cast
    nlinarith
  have hcosub := Real.cos_le_one (2 * Real.pi * (1 : ℕ) / ((1024 : ℝ) - 1))
  have hcoslb := Real.one_sub_sq_div_two_le_cos
    (x := 2 * Real.pi * (1 : ℕ) / ((1024 : ℝ) - 1))
  have hw0 : 0 ≤ hannWindow 1024 1 := by
    rw [hannWindow]
    push_cast
    nlinarith
  have hwub : hannWindow 1024 1 ≤ 1e-5 := by
    rw [hannWindow]
    push_cast at hcoslb hθub hθlb ⊢
    nlinarith
  have hwsub : windowSumSq 1 1024 512 1 ≤ 1e-9 := by
    rw [hwsval]
    nlinarith
  have hws0 : 0 ≤ windowSumSq 1 1024 512 1 := by
    rw [hwsval]
    positivity
  rw [hgetD, istftNormalize, if_neg (not_lt.mpr hwsub)]
  -- bound the sine sample
  have hxval : sineSignal 1 = Real.sin (2 * Real.pi * 440 / 44100) := by
    rw [sineSignal]
    norm_num
  have hxub : 2 * Real.pi * 440 / 44100 ≤ 0.0629 := by nlinarith
  have hxlb : 0.0626 ≤ 2 * Real.pi * 440 / 44100 := by nlinarith
  have hcube : (2 * Real.pi * 440 / 44100) ^ 3 ≤ 0.0629 ^ 3 :=
    pow_le_pow_left₀ (by nlinarith) hxub 3
  have hsin := Real.sin_gt_sub_cube (x := 2 * Real.pi * 440 / 44100)
    (by nlinarith) (by nlinarith)
  have hslb : 0.0624 ≤ sineSignal 1 := by
    rw [hxval]
    nlinarith
  have hsub : sineSignal 1 ≤ 1 := by
    rw [hxval]
    exact Real.sin_le_one _
  rw [abs_of_nonneg (by nlinarith)]
  nlinarith
